import Mathlib

/-!
Shallow embedding of the chess engine (src/js/engine.js) and the search
engine (src/unnamed/part_000, module ChessBot).  JS objects become Lean
structures, JS arrays become Lean lists, JS numbers (used only as integers
here) become Int/Nat, and in-place mutation becomes functional update.
cloneBoard / cloneState are identities in this pure setting and are
therefore not reproduced.  Field and function names follow the source
except where Lean reserves the word (the Move fields "from"/"to" become
fromSq/toSq) or where a source name is unavailable (getMoveNotation is
embedded as sanOf, the moveNotations field as sanList).
-/

namespace Chess

/-- Colors 'w' / 'b' of engine.js. -/
inductive Color where
  | white
  | black
deriving DecidableEq

/-- Piece letters 'P','N','B','R','Q','K' of engine.js. -/
inductive PieceType where
  | P
  | N
  | B
  | R
  | Q
  | K
deriving DecidableEq

/-- A piece object { color, type }. -/
structure Piece where
  color : Color
  type : PieceType
deriving DecidableEq

/-- A board square { row, col }; JS numbers are embedded as Int because move
generation forms coordinates by signed offsets before bounds checks. -/
structure Square where
  row : Int
  col : Int
deriving DecidableEq

/-- The castling-rights object { wK, wQ, bK, bQ }. -/
structure CastlingRights where
  wK : Bool
  wQ : Bool
  bK : Bool
  bQ : Bool
deriving DecidableEq

/-- Castling side: the 'K' / 'Q' tag on generated castling moves. -/
inductive Side where
  | kingSide
  | queenSide
deriving DecidableEq

/-- A move object.  Source moves carry optional fields promotion,
enPassant, castling; absent fields default like JS undefined. -/
structure Move where
  fromSq : Square
  toSq : Square
  promotion : Option PieceType := none
  enPassant : Bool := false
  castling : Option Side := none
deriving DecidableEq

/-- board: an array of 8 row arrays of (piece | null). -/
abbrev Board := List (List (Option Piece))

/-- Read board[r][c].  In the source every read is either guarded by
inBounds or performed with literal in-range indices; out-of-range reads
embed JS undefined as none. -/
def getSq (b : Board) (r c : Int) : Option Piece :=
  if 0 ≤ r ∧ 0 ≤ c then (b.getD r.toNat []).getD c.toNat none else none

/-- Write board[r][c] = p (functional).  All source writes are in range
for the inputs the claims quantify over; out-of-range writes are a no-op
here. -/
def setSq (b : Board) (r c : Int) (p : Option Piece) : Board :=
  if 0 ≤ r ∧ 0 ≤ c then b.set r.toNat ((b.getD r.toNat []).set c.toNat p) else b

/-- inBounds(r, c) of engine.js. -/
def inBounds (r c : Int) : Bool :=
  0 ≤ r && r < 8 && 0 ≤ c && c < 8

/-- opponent(color) of engine.js. -/
def opponent (color : Color) : Color :=
  match color with
  | .white => .black
  | .black => .white

/-- History entry pushed by makeMove. -/
structure HistEntry where
  move : Move
  captured : Option Piece
  prevCastling : CastlingRights
  prevEnPassant : Option Square
deriving DecidableEq

/-- Per-color captured-piece tallies. -/
structure CapturedPieces where
  w : List PieceType
  b : List PieceType
deriving DecidableEq

/-- The full game-state object of engine.js. -/
structure GameState where
  board : Board
  turn : Color
  castling : CastlingRights
  enPassant : Option Square
  halfMoveClock : Nat
  fullMoveNumber : Nat
  moveHistory : List HistEntry
  capturedPieces : CapturedPieces
  sanList : List (List Char)
  gameOver : Bool
  result : Option (List Char)
deriving DecidableEq

/-! ## FEN (engine.js lines 38-129)

Strings are embedded as lists of characters; String.prototype.split
becomes splitCh. -/

/-- JS str.split(sep) for a single-character separator: split at every
occurrence, keeping empty segments (List.splitOn has exactly these
semantics). -/
def splitCh (sep : Char) (s : List Char) : List (List Char) :=
  s.splitOn sep

/-- Numeric value of a decimal digit character (0 for non-digits; the
source only reaches this on digit characters). -/
def digitVal (c : Char) : Nat :=
  if c.isDigit then c.toNat - 48 else 0

/-- The digit character for n < 10. -/
def digitChar (n : Nat) : Char :=
  Char.ofNat (48 + n)

/-- Fuel-driven decimal rendering (structural recursion so that concrete
values compute inside the kernel; the value strictly decreases, so any
fuel above it is enough). -/
def natToCharsAux : Nat → Nat → List Char
  | 0, _ => []
  | fuel + 1, n =>
    if n < 10 then [digitChar n]
    else natToCharsAux fuel (n / 10) ++ [digitChar (n % 10)]

/-- Decimal rendering of a natural number, as JS string concatenation of a
number produces. -/
def natToChars (n : Nat) : List Char :=
  natToCharsAux (n + 1) n

/-- Decimal rendering of an integer. -/
def intToChars (i : Int) : List Char :=
  if i < 0 then '-' :: natToChars (-i).toNat else natToChars i.toNat

/-- Value of a digit string. -/
def digitsToNat (s : List Char) : Nat :=
  s.foldl (fun a c => 10 * a + digitVal c) 0

/-- Digits-prefix value: JS parseInt on the canonical numeric strings the
FEN fields contain (none embeds NaN on a digit-free prefix). -/
def jsParseNat (s : List Char) : Option Nat :=
  let ds := s.takeWhile (·.isDigit)
  if ds = [] then none else some (digitsToNat ds)

/-- The piece denoted by one FEN placement letter (uppercase = white).
Source keeps the raw letter; the 12 valid letters map onto PieceType, and
other letters (unreachable for well-formed FEN) default to a pawn. -/
def pieceOfChar (ch : Char) : Piece :=
  let color := if ch.isUpper then Color.white else Color.black
  let kind :=
    match ch.toUpper with
    | 'N' => PieceType.N
    | 'B' => PieceType.B
    | 'R' => PieceType.R
    | 'Q' => PieceType.Q
    | 'K' => PieceType.K
    | _ => PieceType.P
  ⟨color, kind⟩

/-- One parsed FEN placement row (digit = that many empty squares). -/
def parseRowChars : List Char → List (Option Piece)
  | [] => []
  | ch :: rest =>
    if ch.isDigit then List.replicate (digitVal ch) none ++ parseRowChars rest
    else some (pieceOfChar ch) :: parseRowChars rest

/-- The fields parseFEN returns. -/
structure FenParts where
  board : Board
  turn : Color
  castling : CastlingRights
  enPassant : Option Square
  halfMoveClock : Nat
  fullMoveNumber : Nat

/-- parseFEN of engine.js. -/
def parseFEN (fen : List Char) : FenParts :=
  let parts := splitCh ' ' fen
  let rows := splitCh '/' (parts.getD 0 [])
  let board : Board := (List.range 8).map (fun r => parseRowChars (rows.getD r []))
  let turnStr := parts.getD 1 []
  let turn := if (if turnStr = [] then ['w'] else turnStr) = ['w']
    then Color.white else Color.black
  let castleRaw := parts.getD 2 []
  let castleStr := if castleRaw = [] then ['K', 'Q', 'k', 'q'] else castleRaw
  let castling : CastlingRights :=
    ⟨castleStr.contains 'K', castleStr.contains 'Q',
     castleStr.contains 'k', castleStr.contains 'q'⟩
  let epStr := parts.getD 3 []
  let enPassant : Option Square :=
    if epStr ≠ [] ∧ epStr ≠ ['-'] then
      some ⟨8 - (digitVal (epStr.getD 1 '0') : Int),
            ((epStr.getD 0 ' ').toNat : Int) - 97⟩
    else none
  let halfMoveClock := (jsParseNat (parts.getD 4 [])).getD 0
  let fullRaw := (jsParseNat (parts.getD 5 [])).getD 1
  let fullMoveNumber := if fullRaw = 0 then 1 else fullRaw
  ⟨board, turn, castling, enPassant, halfMoveClock, fullMoveNumber⟩

/-- stateFromFEN of engine.js. -/
def stateFromFEN (fen : List Char) : GameState :=
  let p := parseFEN fen
  { board := p.board
    turn := p.turn
    castling := p.castling
    enPassant := p.enPassant
    halfMoveClock := p.halfMoveClock
    fullMoveNumber := p.fullMoveNumber
    moveHistory := []
    capturedPieces := ⟨[], []⟩
    sanList := []
    gameOver := false
    result := none }

/-- FEN letter of a piece (uppercase for white). -/
def pieceChar (p : Piece) : Char :=
  match p.color, p.type with
  | .white, .P => 'P'
  | .white, .N => 'N'
  | .white, .B => 'B'
  | .white, .R => 'R'
  | .white, .Q => 'Q'
  | .white, .K => 'K'
  | .black, .P => 'p'
  | .black, .N => 'n'
  | .black, .B => 'b'
  | .black, .R => 'r'
  | .black, .Q => 'q'
  | .black, .K => 'k'

/-- The inner loop of boardToFEN over one rank, carrying the empty-run
counter. -/
def encodeRowAux : List (Option Piece) → Nat → List Char
  | [], e => if e > 0 then natToChars e else []
  | none :: rest, e => encodeRowAux rest (e + 1)
  | some p :: rest, e =>
    (if e > 0 then natToChars e else []) ++ pieceChar p :: encodeRowAux rest 0

/-- The 8 squares boardToFEN reads from rank r (columns 0..7, out-of-range
reads giving undefined = none). -/
def rankSquares (b : Board) (r : Nat) : List (Option Piece) :=
  (List.range 8).map (fun c => (b.getD r []).getD c none)

/-- The character written for a color in the active-color field. -/
def colorChar (c : Color) : Char :=
  match c with
  | .white => 'w'
  | .black => 'b'

/-- boardToFEN of engine.js. -/
def boardToFEN (state : GameState) : List Char :=
  let placement :=
    List.intercalate ['/']
      ((List.range 8).map (fun r => encodeRowAux (rankSquares state.board r) 0))
  let castle :=
    (if state.castling.wK then ['K'] else []) ++
    (if state.castling.wQ then ['Q'] else []) ++
    (if state.castling.bK then ['k'] else []) ++
    (if state.castling.bQ then ['q'] else [])
  let castleOut := if castle = [] then ['-'] else castle
  let epOut := state.enPassant.elim ['-']
    (fun sq => Char.ofNat (97 + sq.col).toNat :: intToChars (8 - sq.row))
  placement ++ ' ' :: colorChar state.turn ::
    ' ' :: (castleOut ++ ' ' :: (epOut ++ ' ' ::
      (natToChars state.halfMoveClock ++ ' ' :: natToChars state.fullMoveNumber)))

/-! ## Pseudo-legal move generation (engine.js lines 172-299) -/

/-- One step budget per ray: from any in-bounds start a ray leaves the
board within 8 steps, so fuel 8 reproduces the unbounded while loop. -/
def rayFuel : Nat := 8

/-- The while loop of slideMoves along one direction. -/
def slideRay (board : Board) (color : Color) (fromSq : Square)
    (dr dc : Int) : Int → Int → Nat → List Move
  | _, _, 0 => []
  | r, c, fuel + 1 =>
    if inBounds r c then
      match getSq board r c with
      | some p =>
        if p.color ≠ color then [{ fromSq := fromSq, toSq := ⟨r, c⟩ }] else []
      | none =>
        { fromSq := fromSq, toSq := ⟨r, c⟩ } ::
          slideRay board color fromSq dr dc (r + dr) (c + dc) fuel
    else []

/-- slideMoves of engine.js. -/
def slideMoves (board : Board) (color : Color) (fromSq : Square)
    (dirs : List (Int × Int)) : List Move :=
  dirs.flatMap (fun d =>
    slideRay board color fromSq d.1 d.2 (fromSq.row + d.1) (fromSq.col + d.2) rayFuel)

/-- The knight offsets of engine.js (also used by isSquareAttacked). -/
def knightOffsets : List (Int × Int) :=
  [(-2, -1), (-2, 1), (-1, -2), (-1, 2), (1, -2), (1, 2), (2, -1), (2, 1)]

/-- The 8 king steps, in the source's dr/dc loop order. -/
def kingOffsets : List (Int × Int) :=
  [(-1, -1), (-1, 0), (-1, 1), (0, -1), (0, 1), (1, -1), (1, 0), (1, 1)]

/-- The promotion kinds pushed for a pawn reaching the last rank, in
source order. -/
def promoKinds : List PieceType := [.Q, .R, .B, .N]

/-- The moves generated from one occupied square (the body of the r/c
loop of getPseudoMoves). -/
def pseudoFrom (state : GameState) (color : Color) (r c : Int) : List Move :=
  let board := state.board
  match getSq board r c with
  | none => []
  | some p =>
    if p.color ≠ color then [] else
    let fromSq : Square := ⟨r, c⟩
    match p.type with
    | .P =>
      let dir : Int := if color = .white then -1 else 1
      let startRow : Int := if color = .white then 6 else 1
      let promoRow : Int := if color = .white then 0 else 7
      let nr := r + dir
      let forward :=
        if inBounds nr c ∧ getSq board nr c = none then
          (if nr = promoRow then
            promoKinds.map (fun promo =>
              { fromSq := fromSq, toSq := ⟨nr, c⟩, promotion := some promo })
          else [{ fromSq := fromSq, toSq := ⟨nr, c⟩ }]) ++
          (let nr2 := r + 2 * dir
           if r = startRow ∧ getSq board nr2 c = none then
             [{ fromSq := fromSq, toSq := ⟨nr2, c⟩ }]
           else [])
        else []
      let captures := [(-1 : Int), 1].flatMap (fun dc =>
        let nc := c + dc
        if inBounds nr nc then
          (match getSq board nr nc with
           | some target =>
             if target.color ≠ color then
               (if nr = promoRow then
                 promoKinds.map (fun promo =>
                   { fromSq := fromSq, toSq := ⟨nr, nc⟩, promotion := some promo })
               else [{ fromSq := fromSq, toSq := ⟨nr, nc⟩ }])
             else []
           | none => []) ++
          (match state.enPassant with
           | some ep =>
             if ep.row = nr ∧ ep.col = nc then
               [{ fromSq := fromSq, toSq := ⟨nr, nc⟩, enPassant := true }]
             else []
           | none => [])
        else [])
      forward ++ captures
    | .N =>
      knightOffsets.flatMap (fun d =>
        let nr := r + d.1
        let nc := c + d.2
        if inBounds nr nc then
          match getSq board nr nc with
          | none => [{ fromSq := fromSq, toSq := ⟨nr, nc⟩ }]
          | some q =>
            if q.color ≠ color then [{ fromSq := fromSq, toSq := ⟨nr, nc⟩ }] else []
        else [])
    | .B => slideMoves board color fromSq [(-1, -1), (-1, 1), (1, -1), (1, 1)]
    | .R => slideMoves board color fromSq [(-1, 0), (1, 0), (0, -1), (0, 1)]
    | .Q => slideMoves board color fromSq
        [(-1, -1), (-1, 1), (1, -1), (1, 1), (-1, 0), (1, 0), (0, -1), (0, 1)]
    | .K =>
      let steps := kingOffsets.flatMap (fun d =>
        let nr := r + d.1
        let nc := c + d.2
        if inBounds nr nc then
          match getSq board nr nc with
          | none => [{ fromSq := fromSq, toSq := ⟨nr, nc⟩ }]
          | some q =>
            if q.color ≠ color then [{ fromSq := fromSq, toSq := ⟨nr, nc⟩ }] else []
        else [])
      let row : Int := if color = .white then 7 else 0
      let ownRookAt : Int → Bool := fun rc =>
        match getSq board row rc with
        | some rk => rk.type == PieceType.R && rk.color == color
        | none => false
      let castles :=
        if r = row ∧ c = 4 then
          (if (if color = .white then state.castling.wK else state.castling.bK) &&
              (getSq board row 5).isNone && (getSq board row 6).isNone &&
              ownRookAt 7 then
            [{ fromSq := fromSq, toSq := ⟨row, 6⟩, castling := some .kingSide }]
          else []) ++
          (if (if color = .white then state.castling.wQ else state.castling.bQ) &&
              (getSq board row 3).isNone && (getSq board row 2).isNone &&
              (getSq board row 1).isNone && ownRookAt 0 then
            [{ fromSq := fromSq, toSq := ⟨row, 2⟩, castling := some .queenSide }]
          else [])
        else []
      steps ++ castles

/-- getPseudoMoves of engine.js: row-major scan of the mover's pieces. -/
def getPseudoMoves (state : GameState) (color : Color) : List Move :=
  (List.range 8).flatMap (fun r =>
    (List.range 8).flatMap (fun c => pseudoFrom state color (r : Int) (c : Int)))

/-! ## Attack detection (engine.js lines 301-364) -/

/-- The while loop of the sliding-attack sections of isSquareAttacked:
walk from (r, c) in direction (dr, dc) until the first piece; attacked iff
that piece has color byColor and one of the two given kinds. -/
def rayAttack (board : Board) (byColor : Color) (k1 k2 : PieceType)
    (dr dc : Int) : Int → Int → Nat → Bool
  | _, _, 0 => false
  | r, c, fuel + 1 =>
    if inBounds r c then
      match getSq board r c with
      | some p => p.color == byColor && (p.type == k1 || p.type == k2)
      | none => rayAttack board byColor k1 k2 dr dc (r + dr) (c + dc) fuel
    else false

/-- isSquareAttacked of engine.js. -/
def isSquareAttacked (board : Board) (row col : Int) (byColor : Color) : Bool :=
  (knightOffsets.any (fun d =>
    let r := row + d.1
    let c := col + d.2
    inBounds r c &&
      match getSq board r c with
      | some p => p.color == byColor && p.type == PieceType.N
      | none => false)) ||
  (kingOffsets.any (fun d =>
    let r := row + d.1
    let c := col + d.2
    inBounds r c &&
      match getSq board r c with
      | some p => p.color == byColor && p.type == PieceType.K
      | none => false)) ||
  (let pawnDir : Int := if byColor = .white then 1 else -1
   [(-1 : Int), 1].any (fun dc =>
     let r := row + pawnDir
     let c := col + dc
     inBounds r c &&
       match getSq board r c with
       | some p => p.color == byColor && p.type == PieceType.P
       | none => false)) ||
  ([((-1 : Int), (-1 : Int)), (-1, 1), (1, -1), (1, 1)].any (fun d =>
    rayAttack board byColor .B .Q d.1 d.2 (row + d.1) (col + d.2) rayFuel)) ||
  ([((-1 : Int), (0 : Int)), (1, 0), (0, -1), (0, 1)].any (fun d =>
    rayAttack board byColor .R .Q d.1 d.2 (row + d.1) (col + d.2) rayFuel))

/-- findKing of engine.js: first king of the color in row-major order. -/
def findKing (board : Board) (color : Color) : Option Square :=
  ((List.range 8).flatMap (fun r =>
    (List.range 8).filterMap (fun c =>
      match getSq board (r : Int) (c : Int) with
      | some p =>
        if p.color = color ∧ p.type = .K then some (⟨r, c⟩ : Square) else none
      | none => none))).head?

/-- isInCheck of engine.js (false when the king is absent). -/
def isInCheck (board : Board) (color : Color) : Bool :=
  match findKing board color with
  | none => false
  | some king => isSquareAttacked board king.row king.col (opponent color)

/-! ## Move application and legality (engine.js lines 368-424) -/

/-- applyMoveToBoard of engine.js, as a functional board update. -/
def applyMoveToBoard (board : Board) (move : Move) : Board :=
  let piece := getSq board move.fromSq.row move.fromSq.col
  let b1 := setSq board move.fromSq.row move.fromSq.col none
  let b2 :=
    if move.enPassant then setSq b1 move.fromSq.row move.toSq.col none else b1
  let b3 :=
    match move.castling with
    | some .kingSide =>
      let row := move.fromSq.row
      setSq (setSq b2 row 5 (getSq b2 row 7)) row 7 none
    | some .queenSide =>
      let row := move.fromSq.row
      setSq (setSq b2 row 3 (getSq b2 row 0)) row 0 none
    | none => b2
  match move.promotion with
  | some promo =>
    setSq b3 move.toSq.row move.toSq.col (piece.map (fun p => ⟨p.color, promo⟩))
  | none => setSq b3 move.toSq.row move.toSq.col piece

/-- getLegalMoves of engine.js (the source's default color argument is
always supplied explicitly here). -/
def getLegalMoves (state : GameState) (color : Color) : List Move :=
  (getPseudoMoves state color).filter (fun move =>
    (match move.castling with
     | none => true
     | some side =>
       !(isInCheck state.board color) &&
       (match side with
        | .kingSide =>
          !(isSquareAttacked state.board move.fromSq.row 5 (opponent color)) &&
          !(isSquareAttacked state.board move.fromSq.row 6 (opponent color))
        | .queenSide =>
          !(isSquareAttacked state.board move.fromSq.row 3 (opponent color)) &&
          !(isSquareAttacked state.board move.fromSq.row 2 (opponent color)))) &&
    !(isInCheck (applyMoveToBoard state.board move) color))

/-! ## Notation (engine.js lines 531-570) -/

/-- String.fromCharCode(97 + c). -/
def colLetterChar (c : Int) : Char :=
  Char.ofNat (97 + c).toNat

/-- The uppercase letter of a piece kind. -/
def pieceTypeChar (t : PieceType) : Char :=
  pieceChar ⟨.white, t⟩

/-- getMoveNotation of engine.js (named sanOf here; see header). -/
def sanOf (state : GameState) (move : Move) (piece : Piece)
    (captured : Option Piece) : List Char :=
  match move.castling with
  | some .kingSide => ['O', '-', 'O']
  | some .queenSide => ['O', '-', 'O', '-', 'O']
  | none =>
    let base :=
      if piece.type ≠ .P then
        let letter := [pieceTypeChar piece.type]
        let samePieceMoves := (getPseudoMoves state piece.color).filter (fun m =>
          m.toSq.row == move.toSq.row && m.toSq.col == move.toSq.col &&
          (match getSq state.board m.fromSq.row m.fromSq.col with
           | some q => q.type == piece.type
           | none => false) &&
          (m.fromSq.row != move.fromSq.row || m.fromSq.col != move.fromSq.col))
        if samePieceMoves ≠ [] then
          let sameCol := samePieceMoves.any (fun m => m.fromSq.col == move.fromSq.col)
          let sameRow := samePieceMoves.any (fun m => m.fromSq.row == move.fromSq.row)
          if !sameCol then letter ++ [colLetterChar move.fromSq.col]
          else if !sameRow then letter ++ intToChars (8 - move.fromSq.row)
          else letter ++ colLetterChar move.fromSq.col :: intToChars (8 - move.fromSq.row)
        else letter
      else []
    let cap :=
      if captured.isSome || move.enPassant then
        (if piece.type = .P then [colLetterChar move.fromSq.col] else []) ++ ['x']
      else []
    let dest := colLetterChar move.toSq.col :: intToChars (8 - move.toSq.row)
    let promo :=
      match move.promotion with
      | some pk => ['='] ++ [pieceTypeChar pk]
      | none => []
    base ++ cap ++ dest ++ promo

/-! ## Draw detection (engine.js lines 574-597) -/

/-- A { type, row, col } entry collected by isInsufficientMaterial. -/
structure LoosePiece where
  type : PieceType
  row : Nat
  col : Nat
deriving DecidableEq

/-- The 64 squares in the row-major order of the source's r/c loops. -/
def allSquares : List (Nat × Nat) :=
  (List.range 8).flatMap (fun r => (List.range 8).map (fun c => (r, c)))

/-- The non-king pieces of a color, in scan order (the pieces arrays of
isInsufficientMaterial). -/
def nonKingPieces (board : Board) (color : Color) : List LoosePiece :=
  allSquares.filterMap (fun q =>
    match getSq board (q.1 : Int) (q.2 : Int) with
    | some p =>
      if p.color = color ∧ p.type ≠ .K then some ⟨p.type, q.1, q.2⟩ else none
    | none => none)

/-- isInsufficientMaterial of engine.js. -/
def isInsufficientMaterial (board : Board) : Bool :=
  let wp := nonKingPieces board .white
  let bp := nonKingPieces board .black
  match wp, bp with
  | [], [] => true
  | [], [x] => x.type == PieceType.B || x.type == PieceType.N
  | [x], [] => x.type == PieceType.B || x.type == PieceType.N
  | [x], [y] =>
    x.type == PieceType.B && y.type == PieceType.B &&
      ((x.row + x.col) % 2 == (y.row + y.col) % 2)
  | _, _ => false

/-! ## makeMove (engine.js lines 428-527) -/

/-- The result string '1/2-1/2'. -/
def drawResult : List Char := ['1', '/', '2', '-', '1', '/', '2']

/-- The result string '1-0'. -/
def whiteWins : List Char := ['1', '-', '0']

/-- The result string '0-1'. -/
def blackWins : List Char := ['0', '-', '1']

/-- The successor state makeMove builds before its termination and draw
detection (board application, en-passant target, castling rights, clocks,
turn flip, history and capture bookkeeping); the game-over flag and the
result are still the cloned input's at this point. -/
def mmApply (state : GameState) (move : Move) (piece : Piece) : GameState :=
  let captured := getSq state.board move.toSq.row move.toSq.col
  let cap1 :=
      match captured with
      | some cp =>
        match cp.color with
        | .white => { state.capturedPieces with w := state.capturedPieces.w ++ [cp.type] }
        | .black => { state.capturedPieces with b := state.capturedPieces.b ++ [cp.type] }
      | none => state.capturedPieces
    let cap2 :=
      if move.enPassant then
        match opponent piece.color with
        | .white => { cap1 with w := cap1.w ++ [PieceType.P] }
        | .black => { cap1 with b := cap1.b ++ [PieceType.P] }
      else cap1
    let board' := applyMoveToBoard state.board move
    let ep' : Option Square :=
      if piece.type = .P ∧ (move.toSq.row - move.fromSq.row).natAbs = 2 then
        some ⟨(move.fromSq.row + move.toSq.row) / 2, move.fromSq.col⟩
      else none
    let c1 :=
      if piece.type = .K then
        match piece.color with
        | .white => { state.castling with wK := false, wQ := false }
        | .black => { state.castling with bK := false, bQ := false }
      else state.castling
    let c2 :=
      if piece.type = .R then
        let c2a :=
          if move.fromSq.col = 0 then
            match piece.color with
            | .white => { c1 with wQ := false }
            | .black => { c1 with bQ := false }
          else c1
        if move.fromSq.col = 7 then
          match piece.color with
          | .white => { c2a with wK := false }
          | .black => { c2a with bK := false }
        else c2a
      else c1
    let c3 :=
      match captured with
      | some cp =>
        if cp.type = .R then
          let c3a :=
            if move.toSq.col = 0 then
              match cp.color with
              | .white => { c2 with wQ := false }
              | .black => { c2 with bQ := false }
            else c2
          if move.toSq.col = 7 then
            match cp.color with
            | .white => { c3a with wK := false }
            | .black => { c3a with bK := false }
          else c3a
        else c2
      | none => c2
    let half' :=
      if piece.type = .P ∨ captured.isSome ∨ move.enPassant then 0
      else state.halfMoveClock + 1
    let full' :=
      if piece.color = .black then state.fullMoveNumber + 1 else state.fullMoveNumber
    let hist' := state.moveHistory ++ [⟨move, captured, state.castling, state.enPassant⟩]
    { board := board'
      turn := opponent piece.color
      castling := c3
      enPassant := ep'
      halfMoveClock := half'
      fullMoveNumber := full'
      moveHistory := hist'
      capturedPieces := cap2
      sanList := state.sanList
      gameOver := state.gameOver
      result := state.result }

/-- The complete successor state for a non-empty origin square: mmApply
followed by the checkmate / stalemate / insufficient-material / 50-move
detection and the notation push of makeMove. -/
def mmFinish (state : GameState) (move : Move) (piece : Piece) : GameState :=
  let st1 := mmApply state move piece
  let captured := getSq state.board move.toSq.row move.toSq.col
  let san0 := sanOf state move piece captured
  let opponentMoves := getLegalMoves st1 st1.turn
  let inCheck := isInCheck st1.board st1.turn
  let sgr :=
    if opponentMoves.isEmpty then
      if inCheck then
        (san0 ++ ['#'], true,
          some (if piece.color = .white then whiteWins else blackWins))
      else (san0, true, some drawResult)
    else if inCheck then (san0 ++ ['+'], st1.gameOver, st1.result)
    else (san0, st1.gameOver, st1.result)
  let gr2 :=
    if !sgr.2.1 && isInsufficientMaterial st1.board then (true, some drawResult)
    else (sgr.2.1, sgr.2.2)
  let gr3 :=
    if !gr2.1 && decide (st1.halfMoveClock ≥ 100) then (true, some drawResult)
    else gr2
  { st1 with
    sanList := state.sanList ++ [sgr.1]
    gameOver := gr3.1
    result := gr3.2 }

/-- makeMove of engine.js.  Returns none exactly when the origin square is
empty; otherwise builds the successor state (cloneState is the identity in
this pure embedding, so the input state is never modified). -/
def makeMove (state : GameState) (move : Move) : Option GameState :=
  match getSq state.board move.fromSq.row move.fromSq.col with
  | none => none
  | some piece => some (mmFinish state move piece)

/-- createInitialState of engine.js (only the board comes from parseFEN;
all other fields are literal). -/
def createInitialState : GameState :=
  { board := (parseFEN ('r' :: 'n' :: 'b' :: 'q' :: 'k' :: 'b' :: 'n' :: 'r' ::
      '/' :: 'p' :: 'p' :: 'p' :: 'p' :: 'p' :: 'p' :: 'p' :: 'p' ::
      '/' :: '8' :: '/' :: '8' :: '/' :: '8' :: '/' :: '8' ::
      '/' :: 'P' :: 'P' :: 'P' :: 'P' :: 'P' :: 'P' :: 'P' :: 'P' ::
      '/' :: 'R' :: 'N' :: 'B' :: 'Q' :: 'K' :: 'B' :: 'N' :: 'R' :: [])).board
    turn := .white
    castling := ⟨true, true, true, true⟩
    enPassant := none
    halfMoveClock := 0
    fullMoveNumber := 1
    moveHistory := []
    capturedPieces := ⟨[], []⟩
    sanList := []
    gameOver := false
    result := none }

/-! ## Search engine (src/unnamed/part_000, module ChessBot) -/

/-- PIECE_VALUE of the bot. -/
def pieceValue : PieceType → Int
  | .P => 100
  | .N => 320
  | .B => 330
  | .R => 500
  | .Q => 900
  | .K => 20000

/-- The PST piece-square tables, transcribed row by row. -/
def pstFor : PieceType → List (List Int)
  | .P =>
    [[0, 0, 0, 0, 0, 0, 0, 0],
     [50, 50, 50, 50, 50, 50, 50, 50],
     [10, 10, 20, 30, 30, 20, 10, 10],
     [5, 5, 10, 25, 25, 10, 5, 5],
     [0, 0, 0, 20, 20, 0, 0, 0],
     [5, -5, -10, 0, 0, -10, -5, 5],
     [5, 10, 10, -20, -20, 10, 10, 5],
     [0, 0, 0, 0, 0, 0, 0, 0]]
  | .N =>
    [[-50, -40, -30, -30, -30, -30, -40, -50],
     [-40, -20, 0, 0, 0, 0, -20, -40],
     [-30, 0, 10, 15, 15, 10, 0, -30],
     [-30, 5, 15, 20, 20, 15, 5, -30],
     [-30, 0, 15, 20, 20, 15, 0, -30],
     [-30, 5, 10, 15, 15, 10, 5, -30],
     [-40, -20, 0, 5, 5, 0, -20, -40],
     [-50, -40, -30, -30, -30, -30, -40, -50]]
  | .B =>
    [[-20, -10, -10, -10, -10, -10, -10, -20],
     [-10, 0, 0, 0, 0, 0, 0, -10],
     [-10, 0, 10, 10, 10, 10, 0, -10],
     [-10, 5, 5, 10, 10, 5, 5, -10],
     [-10, 0, 5, 10, 10, 5, 0, -10],
     [-10, 10, 5, 10, 10, 5, 10, -10],
     [-10, 5, 0, 0, 0, 0, 5, -10],
     [-20, -10, -10, -10, -10, -10, -10, -20]]
  | .R =>
    [[0, 0, 0, 0, 0, 0, 0, 0],
     [5, 10, 10, 10, 10, 10, 10, 5],
     [-5, 0, 0, 0, 0, 0, 0, -5],
     [-5, 0, 0, 0, 0, 0, 0, -5],
     [-5, 0, 0, 0, 0, 0, 0, -5],
     [-5, 0, 0, 0, 0, 0, 0, -5],
     [-5, 0, 0, 0, 0, 0, 0, -5],
     [0, 0, 0, 5, 5, 0, 0, 0]]
  | .Q =>
    [[-20, -10, -10, -5, -5, -10, -10, -20],
     [-10, 0, 0, 0, 0, 0, 0, -10],
     [-10, 0, 5, 5, 5, 5, 0, -10],
     [-5, 0, 5, 5, 5, 5, 0, -5],
     [0, 0, 5, 5, 5, 5, 0, -5],
     [-10, 5, 5, 5, 5, 5, 0, -10],
     [-10, 0, 5, 0, 0, 0, 0, -10],
     [-20, -10, -10, -5, -5, -10, -10, -20]]
  | .K =>
    [[-30, -40, -40, -50, -50, -40, -40, -30],
     [-30, -40, -40, -50, -50, -40, -40, -30],
     [-30, -40, -40, -50, -50, -40, -40, -30],
     [-30, -40, -40, -50, -50, -40, -40, -30],
     [-20, -30, -30, -40, -40, -30, -30, -20],
     [-10, -20, -20, -20, -20, -20, -20, -10],
     [20, 20, 0, 0, 0, 0, 20, 20],
     [20, 30, 10, 0, 0, 10, 30, 20]]

/-- evaluate of the bot: material plus piece-square bonus, from White's
perspective. -/
def evaluate (state : GameState) : Int :=
  (List.range 8).foldl (fun score (r : Nat) =>
    (List.range 8).foldl (fun score (c : Nat) =>
      match getSq state.board (r : Int) (c : Int) with
      | none => score
      | some p =>
        let val := pieceValue p.type
        let pstRow := if p.color = .white then r else 7 - r
        let pst := ((pstFor p.type).getD pstRow []).getD c 0
        if p.color = .white then score + (val + pst) else score - (val + pst))
      score) 0

/-- The ordering heuristic of orderMoves (the comparator's per-move
score). -/
def moveOrderScore (state : GameState) (m : Move) : Int :=
  let captPart :=
    match getSq state.board m.toSq.row m.toSq.col with
    | some capt =>
      pieceValue capt.type -
        (match getSq state.board m.fromSq.row m.fromSq.col with
         | some mover => pieceValue mover.type
         | none => 0) / 10
    | none => 0
  let promoPart :=
    match m.promotion with
    | some pk => pieceValue pk
    | none => 0
  captPart + promoPart

/-- Insert into a descending-sorted list, after all entries of greater or
equal score (so earlier-generated moves keep their place on ties). -/
def insertDesc (key : Move → Int) (m : Move) : List Move → List Move
  | [] => [m]
  | x :: xs => if key x < key m then m :: x :: xs else x :: insertDesc key m xs

/-- orderMoves of the bot: the JS stable sort with comparator
scoreB - scoreA, i.e. the stable descending order by moveOrderScore. -/
def orderMoves (state : GameState) (moves : List Move) : List Move :=
  moves.foldl (fun acc m => insertDesc (moveOrderScore state) m acc) []

/-- Scores are JS numbers that here take only integer values and the two
infinities used to seed maxEval / minEval and the root window. -/
abbrev XInt := WithBot (WithTop Int)

/-- Coercion of a finite score. -/
def toX (i : Int) : XInt := ((i : WithTop Int) : WithBot (WithTop Int))

/-- The { score, move } record minimax returns. -/
structure SearchRes where
  score : XInt
  move : Option Move

/-- The maximizing for-loop of minimax: arguments are the remaining moves,
maxEval, alpha, and the best move so far; step evaluates a child given the
current alpha. -/
def maxLoop (step : GameState → XInt → XInt) (state : GameState) (beta : XInt) :
    List Move → XInt → XInt → Move → XInt × Move
  | [], maxEval, _, best => (maxEval, best)
  | m :: rest, maxEval, alpha, best =>
    match makeMove state m with
    | none => maxLoop step state beta rest maxEval alpha best
    | some ns =>
      let r := step ns alpha
      let maxEval' := if maxEval < r then r else maxEval
      let best' := if maxEval < r then m else best
      let alpha' := max alpha r
      if beta ≤ alpha' then (maxEval', best')
      else maxLoop step state beta rest maxEval' alpha' best'

/-- The minimizing for-loop of minimax. -/
def minLoop (step : GameState → XInt → XInt) (state : GameState) (alpha : XInt) :
    List Move → XInt → XInt → Move → XInt × Move
  | [], minEval, _, best => (minEval, best)
  | m :: rest, minEval, beta, best =>
    match makeMove state m with
    | none => minLoop step state alpha rest minEval beta best
    | some ns =>
      let r := step ns beta
      let minEval' := if r < minEval then r else minEval
      let best' := if r < minEval then m else best
      let beta' := min beta r
      if beta' ≤ alpha then (minEval', best')
      else minLoop step state alpha rest minEval' beta' best'

/-- minimax of the bot, with alpha-beta pruning.  Depth is the remaining
ply budget; the mate score offsets use the current depth value exactly as
the source does. -/
def minimax : Nat → GameState → XInt → XInt → Bool → SearchRes
  | 0, state, _, _, _ => ⟨toX (evaluate state), none⟩
  | depth + 1, state, alpha, beta, maximizing =>
    if state.gameOver then ⟨toX (evaluate state), none⟩
    else
      let moves := orderMoves state (getLegalMoves state state.turn)
      match moves with
      | [] =>
        if isInCheck state.board state.turn then
          ⟨toX (if maximizing then -99999 + (4 - ((depth + 1 : Nat) : Int))
                else 99999 - (4 - ((depth + 1 : Nat) : Int))), none⟩
        else ⟨toX 0, none⟩
      | m0 :: _ =>
        if maximizing then
          let res := maxLoop (fun ns a => (minimax depth ns a beta false).score)
            state beta moves ⊥ alpha m0
          ⟨res.1, some res.2⟩
        else
          let res := minLoop (fun ns b => (minimax depth ns alpha b true).score)
            state alpha moves ⊤ beta m0
          ⟨res.1, some res.2⟩

/-- Modelled from the spec: the maximizing loop with the pruning break
removed (alpha/beta then play no role and are dropped). -/
def fullMaxLoop (step : GameState → XInt) (state : GameState) :
    List Move → XInt → Move → XInt × Move
  | [], maxEval, best => (maxEval, best)
  | m :: rest, maxEval, best =>
    match makeMove state m with
    | none => fullMaxLoop step state rest maxEval best
    | some ns =>
      let r := step ns
      fullMaxLoop step state rest (if maxEval < r then r else maxEval)
        (if maxEval < r then m else best)

/-- Modelled from the spec: the minimizing loop with the pruning break
removed. -/
def fullMinLoop (step : GameState → XInt) (state : GameState) :
    List Move → XInt → Move → XInt × Move
  | [], minEval, best => (minEval, best)
  | m :: rest, minEval, best =>
    match makeMove state m with
    | none => fullMinLoop step state rest minEval best
    | some ns =>
      let r := step ns
      fullMinLoop step state rest (if r < minEval then r else minEval)
        (if r < minEval then m else best)

/-- Modelled from the spec: minimax with the pruning break (beta <= alpha)
removed, over the same move ordering — the unpruned reference recursion of
the alpha-beta-equivalence property. -/
def minimaxFull : Nat → GameState → Bool → SearchRes
  | 0, state, _ => ⟨toX (evaluate state), none⟩
  | depth + 1, state, maximizing =>
    if state.gameOver then ⟨toX (evaluate state), none⟩
    else
      let moves := orderMoves state (getLegalMoves state state.turn)
      match moves with
      | [] =>
        if isInCheck state.board state.turn then
          ⟨toX (if maximizing then -99999 + (4 - ((depth + 1 : Nat) : Int))
                else 99999 - (4 - ((depth + 1 : Nat) : Int))), none⟩
        else ⟨toX 0, none⟩
      | m0 :: _ =>
        if maximizing then
          let res := fullMaxLoop (fun ns => (minimaxFull depth ns false).score)
            state moves ⊥ m0
          ⟨res.1, some res.2⟩
        else
          let res := fullMinLoop (fun ns => (minimaxFull depth ns true).score)
            state moves ⊤ m0
          ⟨res.1, some res.2⟩

/-- getBestMove of the bot. -/
def getBestMove (state : GameState) (depth : Nat) : Option Move :=
  (minimax depth state ⊥ ⊤ (state.turn == .white)).move

/-! ## Auxiliary definitions used by the statements and witnesses -/

/-- An 8x8 board (the shape every board of the data model has). -/
def Board8 (b : Board) : Prop :=
  b.length = 8 ∧ ∀ row ∈ b, row.length = 8

instance (b : Board) : Decidable (Board8 b) :=
  inferInstanceAs (Decidable (_ ∧ _))

/-- An empty rank. -/
def emptyRank : List (Option Piece) := List.replicate 8 none

/-- An empty 8x8 board. -/
def emptyBoard : Board := List.replicate 8 emptyRank

/-- A bare state around a given board and side to move (no rights, no
history). -/
def mkState (b : Board) (t : Color) : GameState :=
  { board := b
    turn := t
    castling := ⟨false, false, false, false⟩
    enPassant := none
    halfMoveClock := 0
    fullMoveNumber := 1
    moveHistory := []
    capturedPieces := ⟨[], []⟩
    sanList := []
    gameOver := false
    result := none }

/-- A lone white king on e1: a tiny position for concrete witnesses. -/
def loneKingState : GameState :=
  mkState (setSq emptyBoard 7 4 (some ⟨.white, .K⟩)) .white

/-- A lone black pawn on a7 with White to move: moving that pawn succeeds
in makeMove and exhibits the turn-update behaviour. -/
def strayPawnState : GameState :=
  mkState (setSq emptyBoard 1 0 (some ⟨.black, .P⟩)) .white

/-- A lone white pawn on a2 with White to move. -/
def whitePawnState : GameState :=
  mkState (setSq emptyBoard 6 0 (some ⟨.white, .P⟩)) .white

/-- A lone white rook on a4 — column 0 but not the home rank — with every
castling right still set. -/
def rookOnA4State : GameState :=
  { mkState (setSq emptyBoard 4 0 (some ⟨.white, .R⟩)) .white with
    castling := ⟨true, true, true, true⟩ }

/-- Specification helper: the move's destination square holds a rook of
the given color before the move is applied (the capture that costs that
color a castling right in makeMove). -/
def capturedRook (s : GameState) (m : Move) (cl : Color) : Bool :=
  match getSq s.board m.toSq.row m.toSq.col with
  | some cp => decide (cp.color = cl ∧ cp.type = PieceType.R)
  | none => false

/-- Kings e1/e8, white bishop c1, black bishop f8, black pawn b2: after
Bc1xb2 only same-colored bishops remain beside the kings. -/
def kbState : GameState :=
  mkState
    (setSq (setSq (setSq (setSq (setSq emptyBoard
      0 4 (some ⟨.black, .K⟩))
      0 5 (some ⟨.black, .B⟩))
      6 1 (some ⟨.black, .P⟩))
      7 2 (some ⟨.white, .B⟩))
      7 4 (some ⟨.white, .K⟩)) .white

/-- The capture Bc1xb2 in kbState. -/
def kbMove : Move := { fromSq := ⟨7, 2⟩, toSq := ⟨6, 1⟩ }

/-- The starting-position FEN string. -/
def startFEN : List Char :=
  ['r', 'n', 'b', 'q', 'k', 'b', 'n', 'r', '/',
   'p', 'p', 'p', 'p', 'p', 'p', 'p', 'p', '/',
   '8', '/', '8', '/', '8', '/', '8', '/',
   'P', 'P', 'P', 'P', 'P', 'P', 'P', 'P', '/',
   'R', 'N', 'B', 'Q', 'K', 'B', 'N', 'R',
   ' ', 'w', ' ', 'K', 'Q', 'k', 'q', ' ', '-', ' ', '0', ' ', '1']

/-! ## Well-formed FEN text

The structural constraints every canonical FEN string of a legal,
reachable position satisfies: six space-separated fields; eight
slash-separated placement rows over the twelve piece letters and the
digits 1-8, with no two adjacent digits and eight squares per row; a
one-letter active color; a castling field in canonical KQkq order (or
"-"); an en-passant field "-" or file a-h + rank 1-8; canonical decimal
clock fields, the full-move number positive. -/

/-- The characters a well-formed placement row may contain. -/
def validRowChar (c : Char) : Bool :=
  ['P', 'N', 'B', 'R', 'Q', 'K', 'p', 'n', 'b', 'r', 'q', 'k',
   '1', '2', '3', '4', '5', '6', '7', '8'].contains c

/-- No two adjacent digit characters (canonical run-length encoding). -/
def noAdjDigits : List Char → Bool
  | c1 :: c2 :: rest => !(c1.isDigit && c2.isDigit) && noAdjDigits (c2 :: rest)
  | _ => true

/-- The number of squares a row string denotes. -/
def rowCount : List Char → Nat
  | [] => 0
  | c :: rest => (if c.isDigit then digitVal c else 1) + rowCount rest

/-- A well-formed placement row: valid characters, canonical runs, eight
squares. -/
def wfRow (s : List Char) : Bool :=
  s.all validRowChar && noAdjDigits s && rowCount s == 8

/-- A well-formed placement field: eight well-formed rows. -/
def wfPlacement (p : List Char) : Bool :=
  (splitCh '/' p).length == 8 && (splitCh '/' p).all wfRow

/-- The sixteen canonical castling fields. -/
def castleFields : List (List Char) :=
  [['-'], ['K'], ['Q'], ['k'], ['q'],
   ['K', 'Q'], ['K', 'k'], ['K', 'q'], ['Q', 'k'], ['Q', 'q'], ['k', 'q'],
   ['K', 'Q', 'k'], ['K', 'Q', 'q'], ['K', 'k', 'q'], ['Q', 'k', 'q'],
   ['K', 'Q', 'k', 'q']]

/-- A canonical castling field. -/
def wfCastle (cs : List Char) : Bool :=
  castleFields.contains cs

/-- A well-formed en-passant field: "-", or file letter a-h (codes
97-104) followed by rank digit 1-8 (codes 49-56). -/
def wfEp (ep : List Char) : Bool :=
  ep == ['-'] ||
  (match ep with
   | [c1, c2] =>
     (97 ≤ c1.toNat && c1.toNat ≤ 104) && (49 ≤ c2.toNat && c2.toNat ≤ 56)
   | _ => false)

/-- A canonical decimal field: exactly the rendering of its own value (so
nonempty, all digits, no leading zeros). -/
def wfClock (s : List Char) : Bool :=
  s == natToChars (digitsToNat s)

/-- The full-move field: canonical and positive. -/
def wfFullMove (s : List Char) : Bool :=
  wfClock s && decide (1 ≤ digitsToNat s)

/-- A well-formed FEN string (satisfied by the canonical FEN of every
legal reachable position). -/
def wellFormedFEN (f : List Char) : Bool :=
  let parts := splitCh ' ' f
  parts.length == 6 &&
  wfPlacement (parts.getD 0 []) &&
  (parts.getD 1 [] == ['w'] || parts.getD 1 [] == ['b']) &&
  wfCastle (parts.getD 2 []) &&
  wfEp (parts.getD 3 []) &&
  wfClock (parts.getD 4 []) &&
  wfFullMove (parts.getD 5 [])

/-! # Theorems -/

/-! ## C1 — legality closure -/

/-- C1: every move returned by getLegalMoves, applied to (a copy of) the
state's board by applyMoveToBoard, yields a board on which the mover's own
king is not attacked.  (cloneBoard is the identity in this pure
embedding.) -/
theorem C1_legal_moves_leave_king_safe (s : GameState) (c : Color) (m : Move)
    (hm : m ∈ getLegalMoves s c) :
    isInCheck (applyMoveToBoard s.board m) c = false := by
  unfold getLegalMoves at hm
  have h := (List.mem_filter.mp hm).2
  simp only [Bool.and_eq_true, Bool.not_eq_true'] at h
  exact h.2

/-- C1 witness: the king step e1-e2 is legal for White in the lone-king
position and indeed leaves no check. -/
theorem C1_witness :
    isInCheck
      (applyMoveToBoard loneKingState.board
        { fromSq := ⟨7, 4⟩, toSq := ⟨6, 4⟩ }) .white = false :=
  C1_legal_moves_leave_king_safe loneKingState .white
    { fromSq := ⟨7, 4⟩, toSq := ⟨6, 4⟩ } (by decide)

/-! ## C2 — failure exactly on an empty origin -/

/-- C2: for a move whose squares lie on the board (the Square type of the
data model), makeMove signals failure — returns none — exactly when the
origin square is empty.  The embedding is a pure function, so no fault is
raised and the input state is never modified. -/
theorem C2_makeMove_none_iff_empty_origin (s : GameState) (m : Move)
    (_hfr : 0 ≤ m.fromSq.row ∧ m.fromSq.row < 8)
    (_hfc : 0 ≤ m.fromSq.col ∧ m.fromSq.col < 8)
    (_htr : 0 ≤ m.toSq.row ∧ m.toSq.row < 8)
    (_htc : 0 ≤ m.toSq.col ∧ m.toSq.col < 8) :
    makeMove s m = none ↔ getSq s.board m.fromSq.row m.fromSq.col = none := by
  unfold makeMove
  cases h : getSq s.board m.fromSq.row m.fromSq.col <;> simp

/-- C2 witness: in the lone-king position, moving from the empty square a8
fails, and makeMove indeed reports none. -/
theorem C2_witness :
    makeMove loneKingState
        { fromSq := ⟨0, 0⟩, toSq := ⟨1, 0⟩ } = none ↔
      getSq loneKingState.board 0 0 = none :=
  C2_makeMove_none_iff_empty_origin loneKingState
    { fromSq := ⟨0, 0⟩, toSq := ⟨1, 0⟩ }
    (by decide) (by decide) (by decide) (by decide)

/-! ## C10 — kingless boards -/

/-- C10: on a board with no king of the given color, isInCheck returns
false.  All embedded operations are total Lean functions, so check,
checkmate and stalemate detection cannot fault on such boards. -/
theorem C10_isInCheck_kingless (b : Board) (c : Color)
    (h : findKing b c = none) : isInCheck b c = false := by
  unfold isInCheck
  rw [h]

/-- C10 witness: the empty board has no white king and isInCheck is
false there. -/
theorem C10_witness : isInCheck emptyBoard .white = false :=
  C10_isInCheck_kingless emptyBoard .white (by decide)

/-! ## C5 — turn update -/

/-- C5 counterexample: makeMove never checks that the moved piece belongs
to the side to move; moving the stray black pawn while White is to move
succeeds, and the resulting turn is White again — not
opponent(s.turn). -/
theorem C5_counterexample :
    (makeMove strayPawnState { fromSq := ⟨1, 0⟩, toSq := ⟨2, 0⟩ }).isSome = true ∧
    (makeMove strayPawnState { fromSq := ⟨1, 0⟩, toSq := ⟨2, 0⟩ }).map
        GameState.turn ≠ some (opponent strayPawnState.turn) := by
  constructor
  · decide
  · decide

/-- C5 amended: makeMove sets the new turn to the opponent of the moved
piece's color; when that piece belongs to the side to move — as for every
move of getLegalMoves — the turn therefore alternates. -/
theorem C5_turn_alternation (s : GameState) (m : Move) (p : Piece)
    (hp : getSq s.board m.fromSq.row m.fromSq.col = some p)
    (hc : p.color = s.turn) :
    (makeMove s m).map GameState.turn = some (opponent s.turn) := by
  unfold makeMove
  rw [hp]
  simp only [Option.map_some']
  rw [← hc]
  rfl

/-- C5 witness: moving the white pawn a2-a3 with White to move flips the
turn to Black. -/
theorem C5_witness :
    (makeMove whitePawnState { fromSq := ⟨6, 0⟩, toSq := ⟨5, 0⟩ }).map
      GameState.turn = some (opponent whitePawnState.turn) :=
  C5_turn_alternation whitePawnState { fromSq := ⟨6, 0⟩, toSq := ⟨5, 0⟩ }
    ⟨.white, .P⟩ (by decide) (by decide)

/-! ## C8 — en-passant application -/

/-- Reading back the square just written (for in-range coordinates on an
8x8 board). -/
theorem getSq_setSq_same (b : Board) (r c : Int) (p : Option Piece)
    (h8 : Board8 b) (hr : 0 ≤ r) (hr8 : r < 8) (hc : 0 ≤ c) (hc8 : c < 8) :
    getSq (setSq b r c p) r c = p := by
  unfold getSq setSq
  rw [if_pos ⟨hr, hc⟩, if_pos ⟨hr, hc⟩]
  have hrn : r.toNat < b.length := by
    rw [h8.1]
    omega
  have hrowlen : (b[r.toNat]?.getD []).length = 8 := by
    rw [List.getElem?_eq_getElem hrn, Option.getD_some]
    exact h8.2 _ (List.getElem_mem hrn)
  simp only [List.getD_eq_getElem?_getD]
  rw [List.getElem?_set_self hrn, Option.getD_some,
    List.getElem?_set_self (by rw [hrowlen]; omega), Option.getD_some]

/-- Squares other than the one written are unchanged by setSq. -/
theorem getSq_setSq_other (b : Board) (r c r' c' : Int) (p : Option Piece)
    (hne : ¬(r = r' ∧ c = c')) :
    getSq (setSq b r c p) r' c' = getSq b r' c' := by
  unfold getSq setSq
  by_cases h1 : 0 ≤ r ∧ 0 ≤ c
  · rw [if_pos h1]
    by_cases h2 : 0 ≤ r' ∧ 0 ≤ c'
    · rw [if_pos h2, if_pos h2]
      simp only [List.getD_eq_getElem?_getD]
      by_cases hrr : r = r'
      · have hcc : c.toNat ≠ c'.toNat := by
          have hner : c ≠ c' := fun hcc => hne ⟨hrr, hcc⟩
          omega
        subst hrr
        by_cases hlen : r.toNat < b.length
        · rw [List.getElem?_set_self hlen, Option.getD_some, List.getElem?_set_ne hcc]
        · rw [List.set_eq_of_length_le (by omega)]
      · have hrn : r.toNat ≠ r'.toNat := by omega
        rw [List.getElem?_set_ne hrn]
    · rw [if_neg h2, if_neg h2]
  · rw [if_neg h1]

/-- setSq preserves the 8x8 shape. -/
theorem Board8_setSq (b : Board) (r c : Int) (p : Option Piece)
    (h8 : Board8 b) : Board8 (setSq b r c p) := by
  unfold setSq
  split
  · by_cases hlen : r.toNat < b.length
    · constructor
      · rw [List.length_set]
        exact h8.1
      · intro row hrow
        rcases List.mem_or_eq_of_mem_set hrow with h | h
        · exact h8.2 row h
        · rw [h, List.length_set, List.getD_eq_getElem?_getD,
            List.getElem?_eq_getElem hlen, Option.getD_some]
          exact h8.2 _ (List.getElem_mem hlen)
    · rw [List.set_eq_of_length_le (by omega)]
      exact h8
  · exact h8

/-- C8: applying a move that carries the en-passant flag (and, as every
generated en-passant capture, no other flag, distinct origin and
destination rows and columns, and on-board squares) removes the captured
pawn from the square at the origin's row and the destination's column,
moves the capturing piece from the origin to the destination, and leaves
every other square unchanged. -/
theorem C8_enPassant_application (b : Board) (m : Move) (h8 : Board8 b)
    (hep : m.enPassant = true) (hcast : m.castling = none)
    (hpromo : m.promotion = none)
    (hfr : 0 ≤ m.fromSq.row ∧ m.fromSq.row < 8)
    (hfc : 0 ≤ m.fromSq.col ∧ m.fromSq.col < 8)
    (htr : 0 ≤ m.toSq.row ∧ m.toSq.row < 8)
    (htc : 0 ≤ m.toSq.col ∧ m.toSq.col < 8)
    (hdr : m.fromSq.row ≠ m.toSq.row) (hdc : m.fromSq.col ≠ m.toSq.col) :
    getSq (applyMoveToBoard b m) m.fromSq.row m.fromSq.col = none ∧
    getSq (applyMoveToBoard b m) m.fromSq.row m.toSq.col = none ∧
    getSq (applyMoveToBoard b m) m.toSq.row m.toSq.col =
      getSq b m.fromSq.row m.fromSq.col ∧
    (∀ r c : Int, ¬(r = m.fromSq.row ∧ c = m.fromSq.col) →
      ¬(r = m.fromSq.row ∧ c = m.toSq.col) →
      ¬(r = m.toSq.row ∧ c = m.toSq.col) →
      getSq (applyMoveToBoard b m) r c = getSq b r c) := by
  unfold applyMoveToBoard
  simp only [hep, hcast, hpromo, eq_self_iff_true, if_true]
  have hB1 : Board8 (setSq b m.fromSq.row m.fromSq.col none) :=
    Board8_setSq _ _ _ _ h8
  have hB2 : Board8 (setSq (setSq b m.fromSq.row m.fromSq.col none)
      m.fromSq.row m.toSq.col none) :=
    Board8_setSq _ _ _ _ hB1
  refine ⟨?_, ?_, ?_, ?_⟩
  · rw [getSq_setSq_other _ _ _ _ _ _ (fun h => hdr h.1.symm),
      getSq_setSq_other _ _ _ _ _ _ (fun h => hdc h.2.symm),
      getSq_setSq_same _ _ _ _ h8 hfr.1 hfr.2 hfc.1 hfc.2]
  · rw [getSq_setSq_other _ _ _ _ _ _ (fun h => hdr h.1.symm),
      getSq_setSq_same _ _ _ _ hB1 hfr.1 hfr.2 htc.1 htc.2]
  · rw [getSq_setSq_same _ _ _ _ hB2 htr.1 htr.2 htc.1 htc.2]
  · intro r c hn1 hn2 hn3
    rw [getSq_setSq_other _ _ _ _ _ _ (fun h => hn3 ⟨h.1.symm, h.2.symm⟩),
      getSq_setSq_other _ _ _ _ _ _ (fun h => hn2 ⟨h.1.symm, h.2.symm⟩),
      getSq_setSq_other _ _ _ _ _ _ (fun h => hn1 ⟨h.1.symm, h.2.symm⟩)]

/-- C8 witness: the concrete en-passant capture e5xd6 after a black double
push d7-d5, checked on its board. -/
theorem C8_witness :
    getSq (applyMoveToBoard
        (setSq (setSq emptyBoard 3 4 (some ⟨.white, .P⟩)) 3 3 (some ⟨.black, .P⟩))
        { fromSq := ⟨3, 4⟩, toSq := ⟨2, 3⟩, enPassant := true }) 3 3 = none := by
  have h := C8_enPassant_application
    (setSq (setSq emptyBoard 3 4 (some ⟨.white, .P⟩)) 3 3 (some ⟨.black, .P⟩))
    { fromSq := ⟨3, 4⟩, toSq := ⟨2, 3⟩, enPassant := true }
    (by decide) (by decide) (by decide) (by decide)
    (by decide) (by decide) (by decide) (by decide) (by decide) (by decide)
  exact h.2.1

/-! ## Field lemmas for the makeMove stages -/

theorem mmFinish_turn (s : GameState) (m : Move) (p : Piece) :
    (mmFinish s m p).turn = opponent p.color := rfl

theorem mmFinish_castling (s : GameState) (m : Move) (p : Piece) :
    (mmFinish s m p).castling = (mmApply s m p).castling := rfl

theorem mmFinish_board (s : GameState) (m : Move) (p : Piece) :
    (mmFinish s m p).board = applyMoveToBoard s.board m := rfl

theorem mmApply_board (s : GameState) (m : Move) (p : Piece) :
    (mmApply s m p).board = applyMoveToBoard s.board m := rfl

theorem mmApply_turn (s : GameState) (m : Move) (p : Piece) :
    (mmApply s m p).turn = opponent p.color := rfl

theorem mmApply_gameOver (s : GameState) (m : Move) (p : Piece) :
    (mmApply s m p).gameOver = s.gameOver := rfl

theorem mmApply_result (s : GameState) (m : Move) (p : Piece) :
    (mmApply s m p).result = s.result := rfl

/-- Legal-move generation reads only the board, castling, en-passant and
the explicit color, so mmFinish and its mmApply stage agree. -/
theorem getLegalMoves_mmFinish (s : GameState) (m : Move) (p : Piece)
    (c : Color) :
    getLegalMoves (mmFinish s m p) c = getLegalMoves (mmApply s m p) c := rfl

/-! ## C4 — castling-rights update -/

/-- C4 counterexample: the source clears a right whenever a rook moves off
column 0 or 7, with no home-rank test.  With every right still set, moving
the white rook from a4 — square (4, 0), column 0 but row 4, not the home
rank 7 — to b4 captures nothing and moves no king, so the claim requires
all four rights to be unchanged; makeMove nevertheless clears White's
queen-side right. -/
theorem C4_counterexample :
    rookOnA4State.castling.wQ = true ∧
    (makeMove rookOnA4State { fromSq := ⟨4, 0⟩, toSq := ⟨4, 1⟩ }).map
      (fun s' => s'.castling.wQ) = some false := by
  constructor
  · decide
  · decide

/-- C4 amended: after a successful makeMove of piece p, each castling
right survives exactly when it was set before and none of the following
holds — its color's king moved; a rook of its color moved from the
matching column (0 for queen-side, 7 for king-side, on any rank); a rook
of its color stood on the destination square in the matching column (on
any rank) and was captured.  No right is ever set. -/
theorem C4_castling_update (s : GameState) (m : Move) (p : Piece)
    (hp : getSq s.board m.fromSq.row m.fromSq.col = some p) :
    (makeMove s m).map GameState.castling = some
      { wK := s.castling.wK &&
          !(decide (p.color = Color.white ∧ p.type = PieceType.K)) &&
          !(decide (p.color = Color.white ∧ p.type = PieceType.R ∧ m.fromSq.col = 7)) &&
          !(capturedRook s m .white && decide (m.toSq.col = 7))
        wQ := s.castling.wQ &&
          !(decide (p.color = Color.white ∧ p.type = PieceType.K)) &&
          !(decide (p.color = Color.white ∧ p.type = PieceType.R ∧ m.fromSq.col = 0)) &&
          !(capturedRook s m .white && decide (m.toSq.col = 0))
        bK := s.castling.bK &&
          !(decide (p.color = Color.black ∧ p.type = PieceType.K)) &&
          !(decide (p.color = Color.black ∧ p.type = PieceType.R ∧ m.fromSq.col = 7)) &&
          !(capturedRook s m .black && decide (m.toSq.col = 7))
        bQ := s.castling.bQ &&
          !(decide (p.color = Color.black ∧ p.type = PieceType.K)) &&
          !(decide (p.color = Color.black ∧ p.type = PieceType.R ∧ m.fromSq.col = 0)) &&
          !(capturedRook s m .black && decide (m.toSq.col = 0)) } := by
  unfold makeMove capturedRook
  rw [hp]
  simp only [Option.map_some', Option.some.injEq, mmFinish_castling]
  unfold mmApply
  rcases p with ⟨pc, pt⟩
  cases hcap : getSq s.board m.toSq.row m.toSq.col with
  | none =>
    cases pc <;> cases pt <;>
      (simp_all; try (split_ifs <;> simp_all))
  | some cp =>
    rcases cp with ⟨cc, ct⟩
    cases pc <;> cases pt <;> cases cc <;> cases ct <;>
      (simp_all; try (split_ifs <;> simp_all))

/-- C4 witness: the amended update rule evaluated on the a4-rook
position. -/
theorem C4_witness :
    (makeMove rookOnA4State { fromSq := ⟨4, 0⟩, toSq := ⟨4, 1⟩ }).map
        GameState.castling = some
      { wK := rookOnA4State.castling.wK &&
          !(decide ((⟨.white, .R⟩ : Piece).color = Color.white ∧
              (⟨.white, .R⟩ : Piece).type = PieceType.K)) &&
          !(decide ((⟨.white, .R⟩ : Piece).color = Color.white ∧
              (⟨.white, .R⟩ : Piece).type = PieceType.R ∧
              ({ fromSq := ⟨4, 0⟩, toSq := ⟨4, 1⟩ } : Move).fromSq.col = 7)) &&
          !(capturedRook rookOnA4State { fromSq := ⟨4, 0⟩, toSq := ⟨4, 1⟩ } .white &&
            decide (({ fromSq := ⟨4, 0⟩, toSq := ⟨4, 1⟩ } : Move).toSq.col = 7))
        wQ := rookOnA4State.castling.wQ &&
          !(decide ((⟨.white, .R⟩ : Piece).color = Color.white ∧
              (⟨.white, .R⟩ : Piece).type = PieceType.K)) &&
          !(decide ((⟨.white, .R⟩ : Piece).color = Color.white ∧
              (⟨.white, .R⟩ : Piece).type = PieceType.R ∧
              ({ fromSq := ⟨4, 0⟩, toSq := ⟨4, 1⟩ } : Move).fromSq.col = 0)) &&
          !(capturedRook rookOnA4State { fromSq := ⟨4, 0⟩, toSq := ⟨4, 1⟩ } .white &&
            decide (({ fromSq := ⟨4, 0⟩, toSq := ⟨4, 1⟩ } : Move).toSq.col = 0))
        bK := rookOnA4State.castling.bK &&
          !(decide ((⟨.white, .R⟩ : Piece).color = Color.black ∧
              (⟨.white, .R⟩ : Piece).type = PieceType.K)) &&
          !(decide ((⟨.white, .R⟩ : Piece).color = Color.black ∧
              (⟨.white, .R⟩ : Piece).type = PieceType.R ∧
              ({ fromSq := ⟨4, 0⟩, toSq := ⟨4, 1⟩ } : Move).fromSq.col = 7)) &&
          !(capturedRook rookOnA4State { fromSq := ⟨4, 0⟩, toSq := ⟨4, 1⟩ } .black &&
            decide (({ fromSq := ⟨4, 0⟩, toSq := ⟨4, 1⟩ } : Move).toSq.col = 7))
        bQ := rookOnA4State.castling.bQ &&
          !(decide ((⟨.white, .R⟩ : Piece).color = Color.black ∧
              (⟨.white, .R⟩ : Piece).type = PieceType.K)) &&
          !(decide ((⟨.white, .R⟩ : Piece).color = Color.black ∧
              (⟨.white, .R⟩ : Piece).type = PieceType.R ∧
              ({ fromSq := ⟨4, 0⟩, toSq := ⟨4, 1⟩ } : Move).fromSq.col = 0)) &&
          !(capturedRook rookOnA4State { fromSq := ⟨4, 0⟩, toSq := ⟨4, 1⟩ } .black &&
            decide (({ fromSq := ⟨4, 0⟩, toSq := ⟨4, 1⟩ } : Move).toSq.col = 0)) } :=
  C4_castling_update rookOnA4State { fromSq := ⟨4, 0⟩, toSq := ⟨4, 1⟩ }
    ⟨.white, .R⟩ (by decide)

/-! ## C6 — getBestMove and legal moves -/

theorem mem_insertDesc (k : Move → Int) (m x : Move) (l : List Move) :
    x ∈ insertDesc k m l ↔ x = m ∨ x ∈ l := by
  induction l with
  | nil => simp [insertDesc]
  | cons y ys ih =>
    unfold insertDesc
    split
    · simp [List.mem_cons]
    · simp [List.mem_cons, ih]
      tauto

theorem mem_orderMoves_fold (k : Move → Int) (l acc : List Move) (x : Move) :
    x ∈ l.foldl (fun acc m => insertDesc k m acc) acc ↔ x ∈ acc ∨ x ∈ l := by
  induction l generalizing acc with
  | nil => simp
  | cons y ys ih =>
    simp only [List.foldl_cons, ih, mem_insertDesc, List.mem_cons]
    tauto

theorem mem_orderMoves (s : GameState) (l : List Move) (x : Move) :
    x ∈ orderMoves s l ↔ x ∈ l := by
  unfold orderMoves
  rw [mem_orderMoves_fold]
  simp

theorem length_insertDesc (k : Move → Int) (m : Move) (l : List Move) :
    (insertDesc k m l).length = l.length + 1 := by
  induction l with
  | nil => rfl
  | cons y ys ih =>
    unfold insertDesc
    split
    · simp
    · simp [ih]

theorem length_orderMoves_fold (k : Move → Int) (l acc : List Move) :
    (l.foldl (fun acc m => insertDesc k m acc) acc).length =
      acc.length + l.length := by
  induction l generalizing acc with
  | nil => simp
  | cons y ys ih =>
    simp only [List.foldl_cons, ih, length_insertDesc, List.length_cons]
    omega

theorem orderMoves_eq_nil_iff (s : GameState) (l : List Move) :
    orderMoves s l = [] ↔ l = [] := by
  constructor
  · intro h
    have hl := length_orderMoves_fold (moveOrderScore s) l []
    rw [show l.foldl (fun acc m => insertDesc (moveOrderScore s) m acc) [] =
      orderMoves s l from rfl, h] at hl
    simpa using List.length_eq_zero.mp (by simpa using hl.symm)
  · intro h
    rw [h]
    rfl

theorem maxLoop_best_mem (step : GameState → XInt → XInt) (st : GameState)
    (beta : XInt) (l : List Move) : ∀ me alpha best,
    (maxLoop step st beta l me alpha best).2 = best ∨
      (maxLoop step st beta l me alpha best).2 ∈ l := by
  induction l with
  | nil =>
    intro me alpha best
    left
    rfl
  | cons m rest ih =>
    intro me alpha best
    unfold maxLoop
    cases makeMove st m with
    | none =>
      rcases ih me alpha best with h | h
      · left
        exact h
      · right
        exact List.mem_cons_of_mem _ h
    | some ns =>
      simp only
      by_cases h1 : me < step ns alpha <;> simp only [if_pos, if_neg, h1, ite_true, ite_false] <;>
        (split
         · first
             | (right; exact List.mem_cons_self _ _)
             | (left; rfl)
         · rcases ih _ _ _ with h | h
           · first
               | (rw [h]; right; exact List.mem_cons_self _ _)
               | (left; exact h)
           · right
             exact List.mem_cons_of_mem _ h)

theorem minLoop_best_mem (step : GameState → XInt → XInt) (st : GameState)
    (alpha : XInt) (l : List Move) : ∀ me beta best,
    (minLoop step st alpha l me beta best).2 = best ∨
      (minLoop step st alpha l me beta best).2 ∈ l := by
  induction l with
  | nil =>
    intro me beta best
    left
    rfl
  | cons m rest ih =>
    intro me beta best
    unfold minLoop
    cases makeMove st m with
    | none =>
      rcases ih me beta best with h | h
      · left
        exact h
      · right
        exact List.mem_cons_of_mem _ h
    | some ns =>
      simp only
      by_cases h1 : step ns beta < me <;> simp only [if_pos, if_neg, h1, ite_true, ite_false] <;>
        (split
         · first
             | (right; exact List.mem_cons_self _ _)
             | (left; rfl)
         · rcases ih _ _ _ with h | h
           · first
               | (rw [h]; right; exact List.mem_cons_self _ _)
               | (left; exact h)
           · right
             exact List.mem_cons_of_mem _ h)

/-- C6 counterexample: at depth 0 minimax returns score-only, so
getBestMove yields no move although the side to move has legal moves (the
claim quantifies over every depth). -/
theorem C6_counterexample :
    getBestMove loneKingState 0 = none ∧
    getLegalMoves loneKingState loneKingState.turn ≠ [] := by
  constructor
  · rfl
  · decide

/-- C6 amended: for positive depth and a state not already marked game
over, getBestMove returns none exactly when the side to move has no legal
move, and any move it returns is one of the side's legal moves. -/
theorem C6_getBestMove_legal (s : GameState) (d : Nat)
    (hd : 1 ≤ d) (hgo : s.gameOver = false) :
    ((getBestMove s d = none) ↔ getLegalMoves s s.turn = []) ∧
    (∀ mv : Move, getBestMove s d = some mv → mv ∈ getLegalMoves s s.turn) := by
  obtain ⟨k, rfl⟩ : ∃ k, d = k + 1 := ⟨d - 1, by omega⟩
  unfold getBestMove minimax
  simp only [hgo, Bool.false_eq_true, if_false]
  cases hmv : orderMoves s (getLegalMoves s s.turn) with
  | nil =>
    have hleg : getLegalMoves s s.turn = [] := (orderMoves_eq_nil_iff _ _).mp hmv
    simp only [hmv]
    constructor
    · split <;> simp [hleg]
    · intro mv h
      split at h <;> simp at h
  | cons m0 rest =>
    have hleg : getLegalMoves s s.turn ≠ [] := by
      intro h
      rw [h] at hmv
      exact absurd hmv.symm (List.cons_ne_nil m0 rest)
    simp only [hmv]
    constructor
    · split <;> simp [hleg]
    · intro mv h
      have hmem : mv ∈ m0 :: rest := by
        split at h
        · simp only [Option.some.injEq] at h
          rcases maxLoop_best_mem (fun ns a => (minimax k ns a ⊤ false).score)
              s ⊤ (m0 :: rest) ⊥ ⊥ m0 with hb | hb
          · rw [← h, hb]
            exact List.mem_cons_self _ _
          · rw [← h]
            exact hb
        · simp only [Option.some.injEq] at h
          rcases minLoop_best_mem (fun ns b => (minimax k ns ⊥ b true).score)
              s ⊥ (m0 :: rest) ⊤ ⊤ m0 with hb | hb
          · rw [← h, hb]
            exact List.mem_cons_self _ _
          · rw [← h]
            exact hb
      rw [← mem_orderMoves s (getLegalMoves s s.turn), hmv]
      exact hmem

/-- C6 witness: depth 1 on the lone-king position returns a Move (the
position has legal moves). -/
theorem C6_witness : getBestMove loneKingState 1 ≠ none := by
  intro h
  have hiff := (C6_getBestMove_legal loneKingState 1 (by decide) (by decide)).1
  have hleg := hiff.mp h
  exact absurd hleg (by decide)

/-! ## C7 — alpha-beta equivalence

The Knuth-Moore style argument: relate the pruned value at a window
(alpha, beta) to the unpruned value by the fail-soft trichotomy, by
induction on depth, with one loop lemma per player. -/

/-- The fail-soft relation between a pruned score r and the unpruned
score v at window (alpha, beta): r failing low bounds v from above, r
failing high bounds v from below, and r inside the window is exact. -/
def abRel (alpha beta r v : XInt) : Prop :=
  (r ≤ alpha → v ≤ r) ∧ (beta ≤ r → r ≤ v) ∧ (alpha < r → r < beta → r = v)

theorem abRel_of_eq (alpha beta : XInt) {r v : XInt} (h : r = v) :
    abRel alpha beta r v :=
  ⟨fun _ => le_of_eq h.symm, fun _ => le_of_eq h, fun _ _ => h⟩

theorem if_lt_eq_max (a b : XInt) : (if a < b then b else a) = max a b := by
  split
  · exact (max_eq_right (le_of_lt (by assumption))).symm
  · exact (max_eq_left (not_lt.mp (by assumption))).symm

theorem if_lt_eq_min (a b : XInt) : (if b < a then b else a) = min a b := by
  split
  · exact (min_eq_right (le_of_lt (by assumption))).symm
  · exact (min_eq_left (not_lt.mp (by assumption))).symm

theorem maxLoop_ge_acc (step : GameState → XInt → XInt) (st : GameState)
    (beta : XInt) (l : List Move) : ∀ me alpha best,
    me ≤ (maxLoop step st beta l me alpha best).1 := by
  induction l with
  | nil =>
    intro me alpha best
    exact le_refl me
  | cons m rest ih =>
    intro me alpha best
    unfold maxLoop
    cases makeMove st m with
    | none => exact ih me alpha best
    | some ns =>
      simp only [if_lt_eq_max]
      split
      · exact le_max_left me (step ns alpha)
      · exact le_trans (le_max_left me (step ns alpha)) (ih _ _ _)

theorem minLoop_le_acc (step : GameState → XInt → XInt) (st : GameState)
    (alpha : XInt) (l : List Move) : ∀ me beta best,
    (minLoop step st alpha l me beta best).1 ≤ me := by
  induction l with
  | nil =>
    intro me beta best
    exact le_refl me
  | cons m rest ih =>
    intro me beta best
    unfold minLoop
    cases makeMove st m with
    | none => exact ih me beta best
    | some ns =>
      simp only [if_lt_eq_min]
      split
      · exact min_le_left me (step ns beta)
      · exact le_trans (ih _ _ _) (min_le_left me (step ns beta))

theorem fullMaxLoop_ge_acc (step : GameState → XInt) (st : GameState)
    (l : List Move) : ∀ me best, me ≤ (fullMaxLoop step st l me best).1 := by
  induction l with
  | nil =>
    intro me best
    exact le_refl me
  | cons m rest ih =>
    intro me best
    unfold fullMaxLoop
    cases makeMove st m with
    | none => exact ih me best
    | some ns =>
      simp only [if_lt_eq_max]
      exact le_trans (le_max_left me (step ns)) (ih _ _)

theorem fullMinLoop_le_acc (step : GameState → XInt) (st : GameState)
    (l : List Move) : ∀ me best, (fullMinLoop step st l me best).1 ≤ me := by
  induction l with
  | nil =>
    intro me best
    exact le_refl me
  | cons m rest ih =>
    intro me best
    unfold fullMinLoop
    cases makeMove st m with
    | none => exact ih me best
    | some ns =>
      simp only [if_lt_eq_min]
      exact le_trans (ih _ _) (min_le_left me (step ns))

/-- The maximizing loop preserves the fail-soft relation: if every child
evaluation is fail-soft correct at any sub-window (alpha', beta), the
pruned loop value and the unpruned loop value are fail-soft related, for
accumulators satisfying the loop invariant me ≤ alpha and mf ≤ me. -/
theorem maxLoop_rel (step : GameState → XInt → XInt) (g : GameState → XInt)
    (st : GameState) (beta : XInt)
    (hstep : ∀ ns alpha, alpha < beta → abRel alpha beta (step ns alpha) (g ns)) :
    ∀ (l : List Move) (me mf alpha : XInt) (best bestf : Move),
      me ≤ alpha → mf ≤ me → alpha < beta →
      abRel alpha beta (maxLoop step st beta l me alpha best).1
        (fullMaxLoop g st l mf bestf).1 := by
  intro l
  induction l with
  | nil =>
    intro me mf alpha best bestf hme hmf hab
    exact ⟨fun _ => hmf,
      fun hb => absurd hab (not_lt.mpr (hb.trans hme)),
      fun hlt _ => absurd hlt (not_lt.mpr hme)⟩
  | cons m rest ih =>
    intro me mf alpha best bestf hme hmf hab
    unfold maxLoop fullMaxLoop
    cases makeMove st m with
    | none => exact ih me mf alpha best bestf hme hmf hab
    | some ns =>
      simp only [if_lt_eq_max]
      have hrel := hstep ns alpha hab
      by_cases hbr : beta ≤ max alpha (step ns alpha)
      · rw [if_pos hbr]
        have hrb : beta ≤ step ns alpha := by
          rcases le_max_iff.mp hbr with h | h
          · exact absurd hab (not_lt.mpr h)
          · exact h
        have hmr : max me (step ns alpha) = step ns alpha :=
          max_eq_right (hme.trans (hab.le.trans hrb))
        refine ⟨?_, ?_, ?_⟩
        · intro hle
          rw [hmr] at hle
          exact absurd hab (not_lt.mpr (hrb.trans hle))
        · intro _
          simp only
          rw [hmr]
          exact (hrel.2.1 hrb).trans
            ((le_max_right mf (g ns)).trans (fullMaxLoop_ge_acc g st rest _ _))
        · intro _ hltb
          simp only at hltb
          rw [hmr] at hltb
          exact absurd (lt_of_le_of_lt hrb hltb) (lt_irrefl beta)
      · rw [if_neg hbr]
        have hrlt : step ns alpha < beta := by
          by_contra h
          exact hbr ((not_lt.mp h).trans (le_max_right alpha _))
        have hgr : max mf (g ns) ≤ max me (step ns alpha) := by
          rcases le_or_lt (step ns alpha) alpha with hra | hra
          · exact max_le_max hmf (hrel.1 hra)
          · rw [← hrel.2.2 hra hrlt]
            exact max_le_max hmf (le_refl _)
        have hR := ih (max me (step ns alpha)) (max mf (g ns))
          (max alpha (step ns alpha))
          (if me < step ns alpha then m else best)
          (if mf < g ns then m else bestf)
          (max_le_max hme (le_refl _)) hgr (max_lt_iff.mpr ⟨hab, hrlt⟩)
        refine ⟨?_, ?_, ?_⟩
        · intro hle
          exact hR.1 (hle.trans (le_max_left alpha _))
        · exact hR.2.1
        · intro hagt hbgt
          rcases le_or_lt (maxLoop step st beta rest (max me (step ns alpha))
              (max alpha (step ns alpha))
              (if me < step ns alpha then m else best)).1
              (max alpha (step ns alpha)) with hle | hgt
          · rcases le_max_iff.mp hle with h | h
            · exact absurd hagt (not_lt.mpr h)
            · have hRge := maxLoop_ge_acc step st beta rest
                (max me (step ns alpha)) (max alpha (step ns alpha))
                (if me < step ns alpha then m else best)
              have hRr := le_antisymm h ((le_max_right me _).trans hRge)
              have hgv := hrel.2.2 (hRr ▸ hagt) (hRr ▸ hbgt)
              refine le_antisymm ?_ ?_
              · rw [hRr, hgv]
                exact (le_max_right mf (g ns)).trans (fullMaxLoop_ge_acc g st rest _ _)
              · exact hR.1 hle
          · exact hR.2.2 hgt hbgt

/-- The minimizing loop: mirror image of maxLoop_rel, with the invariant
beta ≤ me and me ≤ mf. -/
theorem minLoop_rel (step : GameState → XInt → XInt) (g : GameState → XInt)
    (st : GameState) (alpha : XInt)
    (hstep : ∀ ns beta, alpha < beta → abRel alpha beta (step ns beta) (g ns)) :
    ∀ (l : List Move) (me mf beta : XInt) (best bestf : Move),
      beta ≤ me → me ≤ mf → alpha < beta →
      abRel alpha beta (minLoop step st alpha l me beta best).1
        (fullMinLoop g st l mf bestf).1 := by
  intro l
  induction l with
  | nil =>
    intro me mf beta best bestf hme hmf hab
    exact ⟨fun hle => absurd hab (not_lt.mpr (hme.trans hle)),
      fun _ => hmf,
      fun _ hlt => absurd hlt (not_lt.mpr hme)⟩
  | cons m rest ih =>
    intro me mf beta best bestf hme hmf hab
    unfold minLoop fullMinLoop
    cases makeMove st m with
    | none => exact ih me mf beta best bestf hme hmf hab
    | some ns =>
      simp only [if_lt_eq_min]
      have hrel := hstep ns beta hab
      by_cases hbr : min beta (step ns beta) ≤ alpha
      · rw [if_pos hbr]
        have hra : step ns beta ≤ alpha := by
          rcases min_le_iff.mp hbr with h | h
          · exact absurd hab (not_lt.mpr h)
          · exact h
        have hmr : min me (step ns beta) = step ns beta :=
          min_eq_right ((hra.trans hab.le).trans hme)
        refine ⟨?_, ?_, ?_⟩
        · intro _
          simp only
          rw [hmr]
          exact ((fullMinLoop_le_acc g st rest _ _).trans
            (min_le_right mf (g ns))).trans (hrel.1 hra)
        · intro hble
          rw [hmr] at hble
          exact absurd hab (not_lt.mpr (hble.trans hra))
        · intro hagt hltb
          simp only at hagt
          rw [hmr] at hagt
          exact absurd (lt_of_lt_of_le hagt hra) (lt_irrefl alpha)
      · rw [if_neg hbr]
        have hagt : alpha < step ns beta := by
          by_contra h
          exact hbr ((min_le_right beta _).trans (not_lt.mp h))
        have hgr : min me (step ns beta) ≤ min mf (g ns) := by
          rcases le_or_lt beta (step ns beta) with hrb | hrb
          · exact min_le_min hmf (hrel.2.1 hrb)
          · rw [← hrel.2.2 hagt hrb]
            exact min_le_min hmf (le_refl _)
        have hR := ih (min me (step ns beta)) (min mf (g ns))
          (min beta (step ns beta))
          (if step ns beta < me then m else best)
          (if g ns < mf then m else bestf)
          (min_le_min hme (le_refl _)) hgr (not_le.mp hbr)
        refine ⟨?_, ?_, ?_⟩
        · exact hR.1
        · intro hble
          exact hR.2.1 ((min_le_left beta _).trans hble)
        · intro hagt' hbgt
          rcases le_or_lt (min beta (step ns beta))
              (minLoop step st alpha rest (min me (step ns beta))
                (min beta (step ns beta))
                (if step ns beta < me then m else best)).1 with hle | hgt
          · rcases min_le_iff.mp hle with h | h
            · exact absurd hbgt (not_lt.mpr h)
            · have hRle := minLoop_le_acc step st alpha rest
                (min me (step ns beta)) (min beta (step ns beta))
                (if step ns beta < me then m else best)
              have hRr := le_antisymm (hRle.trans (min_le_right me _)) h
              have hgv := hrel.2.2 (hRr ▸ hagt') (hRr ▸ hbgt)
              refine le_antisymm ?_ ?_
              · exact hR.2.1 hle
              · rw [hRr, hgv]
                exact (fullMinLoop_le_acc g st rest _ _).trans (min_le_right mf (g ns))
          · exact hR.2.2 hagt' hgt

/-- Fail-soft correctness of the pruning search against the unpruned
recursion, by induction on depth. -/
theorem minimax_abRel : ∀ (d : Nat) (s : GameState) (alpha beta : XInt)
    (mx : Bool), alpha < beta →
    abRel alpha beta (minimax d s alpha beta mx).score
      (minimaxFull d s mx).score := by
  intro d
  induction d with
  | zero =>
    intro s alpha beta mx _
    exact abRel_of_eq alpha beta rfl
  | succ k ih =>
    intro s alpha beta mx hab
    unfold minimax minimaxFull
    by_cases hgo : s.gameOver = true
    · simp only [hgo, if_true]
      exact abRel_of_eq alpha beta rfl
    · simp only [hgo, if_false]
      cases hmv : orderMoves s (getLegalMoves s s.turn) with
      | nil =>
        by_cases hic : isInCheck s.board s.turn = true <;>
          simp only [hic, if_true, if_false] <;>
          exact abRel_of_eq alpha beta rfl
      | cons m0 rest =>
        cases mx with
        | true =>
          simp only [if_true]
          exact maxLoop_rel
            (fun ns a => (minimax k ns a beta false).score)
            (fun ns => (minimaxFull k ns false).score) s beta
            (fun ns a ha => ih ns a beta false ha)
            (m0 :: rest) ⊥ ⊥ alpha m0 m0 bot_le (le_refl _) hab
        | false =>
          simp only [if_false]
          exact minLoop_rel
            (fun ns b => (minimax k ns alpha b true).score)
            (fun ns => (minimaxFull k ns true).score) s alpha
            (fun ns b hb => ih ns alpha b true hb)
            (m0 :: rest) ⊤ ⊤ beta m0 m0 le_top (le_refl _) hab

/-- C7: over the full window (-infinity, +infinity) the alpha-beta search
returns exactly the score of the same recursion with the pruning break
removed (minimaxFull), for every state, depth, and maximizing flag, over
the same move ordering. -/
theorem C7_alphabeta_equivalence (d : Nat) (s : GameState) (mx : Bool) :
    (minimax d s ⊥ ⊤ mx).score = (minimaxFull d s mx).score := by
  have h := minimax_abRel d s ⊥ ⊤ mx (by
    exact Ne.bot_lt (by
      intro hbt
      exact absurd hbt (by decide)))
  rcases le_or_lt (minimax d s ⊥ ⊤ mx).score ⊥ with hle | hgt
  · have hv := h.1 hle
    rw [le_bot_iff.mp hle, le_bot_iff.mp (hv.trans hle)]
  · rcases le_or_lt ⊤ (minimax d s ⊥ ⊤ mx).score with hge | hlt
    · have hv := h.2.1 hge
      rw [top_le_iff.mp hge, top_le_iff.mp (le_trans hge hv)]
    · exact h.2.2 hgt hlt

/-! ## C9 — insufficient material after a move -/

/-- After a successful makeMove from a live position whose new side to
move still has legal replies, an insufficient-material board makes the
result a draw. -/
theorem makeMove_draw_fields (s : GameState) (m : Move) (s' : GameState)
    (h : makeMove s m = some s') (hgo : s.gameOver = false)
    (hterm : getLegalMoves s' s'.turn ≠ [])
    (hins : isInsufficientMaterial s'.board = true) :
    s'.gameOver = true ∧ s'.result = some drawResult := by
  unfold makeMove at h
  cases hp : getSq s.board m.fromSq.row m.fromSq.col with
  | none =>
    rw [hp] at h
    exact absurd h (by simp)
  | some p =>
    rw [hp] at h
    simp only [Option.some.injEq] at h
    subst h
    rw [mmFinish_turn, getLegalMoves_mmFinish, ← mmApply_turn] at hterm
    rw [mmFinish_board, ← mmApply_board s m p] at hins
    have hoe : (getLegalMoves (mmApply s m p) (mmApply s m p).turn).isEmpty = false := by
      cases hl : getLegalMoves (mmApply s m p) (mmApply s m p).turn with
      | nil => exact absurd hl hterm
      | cons a l => rfl
    have hgo1 : (mmApply s m p).gameOver = false := by
      rw [mmApply_gameOver, hgo]
    by_cases hic : isInCheck (mmApply s m p).board (mmApply s m p).turn = true
    · constructor
      · show (mmFinish s m p).gameOver = true
        unfold mmFinish
        simp [hoe, hic, hgo1, hins]
      · show (mmFinish s m p).result = some drawResult
        unfold mmFinish
        simp [hoe, hic, hgo1, hins]
    · constructor
      · show (mmFinish s m p).gameOver = true
        unfold mmFinish
        simp [hoe, hic, hgo1, hins]
      · show (mmFinish s m p).result = some drawResult
        unfold mmFinish
        simp [hoe, hic, hgo1, hins]

theorem filterMap_none {α β : Type} (f : α → Option β) :
    ∀ l : List α, (∀ q ∈ l, f q = none) → l.filterMap f = [] := by
  intro l
  induction l with
  | nil => intro _; rfl
  | cons y ys ih =>
    intro h
    rw [List.filterMap_cons, h y (List.mem_cons_self y ys)]
    exact ih (fun q hq => h q (List.mem_cons_of_mem y hq))

/-- A filterMap over a duplicate-free list that yields something only at
one element collapses to that single image. -/
theorem filterMap_eq_singleton {α β : Type} {l : List α} {f : α → Option β}
    {a : α} {x : β} (hnd : l.Nodup) (hmem : a ∈ l) (hfa : f a = some x)
    (hother : ∀ q ∈ l, q ≠ a → f q = none) :
    l.filterMap f = [x] := by
  induction l with
  | nil => cases hmem
  | cons y ys ih =>
    rcases List.mem_cons.mp hmem with rfl | hm
    · rw [List.filterMap_cons, hfa,
        filterMap_none f ys (fun q hq =>
          hother q (List.mem_cons_of_mem a hq)
            (fun hqa => (List.nodup_cons.mp hnd).1 (hqa ▸ hq)))]
    · have hya : y ≠ a := by
        rintro rfl
        exact (List.nodup_cons.mp hnd).1 hm
      rw [List.filterMap_cons, hother y (List.mem_cons_self y ys) hya]
      exact ih (List.nodup_cons.mp hnd).2 hm
        (fun q hq hqa => hother q (List.mem_cons_of_mem y hq) hqa)

theorem mem_allSquares (r c : Nat) : (r, c) ∈ allSquares ↔ r < 8 ∧ c < 8 := by
  simp [allSquares, List.mem_flatMap, List.mem_map, List.mem_range]

theorem allSquares_nodup : allSquares.Nodup := by decide

/-- C9: if a successful makeMove from a live position leaves exactly one
king and one bishop per color (described square by square) and the new
side to move still has legal replies (the move is not already terminal by
checkmate or stalemate), then same-colored bishops (equal parity of
row + col) force gameOver with a drawn result, while opposite-colored
bishops leave isInsufficientMaterial false. -/
theorem C9_insufficient_material (s : GameState) (m : Move) (s' : GameState)
    (wbr wbc bbr bbc wkr wkc bkr bkc : Nat)
    (hmm : makeMove s m = some s')
    (hgo : s.gameOver = false)
    (hterm : getLegalMoves s' s'.turn ≠ [])
    (hwb : wbr < 8 ∧ wbc < 8) (hbb : bbr < 8 ∧ bbc < 8)
    (_hwk : wkr < 8 ∧ wkc < 8) (_hbk : bkr < 8 ∧ bkc < 8)
    (_hdist : List.Pairwise (· ≠ ·) [(wbr, wbc), (bbr, bbc), (wkr, wkc), (bkr, bkc)])
    (hb : ∀ r : Nat, r < 8 → ∀ c : Nat, c < 8 →
      getSq s'.board (r : Int) (c : Int) =
        if r = wbr ∧ c = wbc then some ⟨.white, .B⟩
        else if r = bbr ∧ c = bbc then some ⟨.black, .B⟩
        else if r = wkr ∧ c = wkc then some ⟨.white, .K⟩
        else if r = bkr ∧ c = bkc then some ⟨.black, .K⟩
        else none) :
    ((wbr + wbc) % 2 = (bbr + bbc) % 2 →
      s'.gameOver = true ∧ s'.result = some drawResult) ∧
    ((wbr + wbc) % 2 ≠ (bbr + bbc) % 2 →
      isInsufficientMaterial s'.board = false) := by
  have hw : nonKingPieces s'.board .white = [⟨.B, wbr, wbc⟩] := by
    unfold nonKingPieces
    apply filterMap_eq_singleton allSquares_nodup
      ((mem_allSquares wbr wbc).mpr ⟨hwb.1, hwb.2⟩)
    · simp only
      rw [hb wbr hwb.1 wbc hwb.2]
      simp
    · intro q hq hne
      rcases q with ⟨qr, qc⟩
      have hqb := (mem_allSquares qr qc).mp hq
      simp only
      rw [hb qr hqb.1 qc hqb.2]
      by_cases h1 : qr = wbr ∧ qc = wbc
      · exact absurd (by rw [h1.1, h1.2]) hne
      · rw [if_neg h1]
        by_cases h2 : qr = bbr ∧ qc = bbc
        · rw [if_pos h2]
          simp
        · rw [if_neg h2]
          by_cases h3 : qr = wkr ∧ qc = wkc
          · rw [if_pos h3]
            simp
          · rw [if_neg h3]
            by_cases h4 : qr = bkr ∧ qc = bkc
            · rw [if_pos h4]
              simp
            · rw [if_neg h4]
  have hne_wb_bb : (wbr, wbc) ≠ (bbr, bbc) := by
    have hpc := (List.pairwise_cons.mp _hdist).1
    exact hpc (bbr, bbc) (by simp)
  have hbl : nonKingPieces s'.board .black = [⟨.B, bbr, bbc⟩] := by
    unfold nonKingPieces
    apply filterMap_eq_singleton allSquares_nodup
      ((mem_allSquares bbr bbc).mpr ⟨hbb.1, hbb.2⟩)
    · have h1 : ¬(bbr = wbr ∧ bbc = wbc) := by
        intro hcon
        exact hne_wb_bb (by simp [hcon.1, hcon.2])
      simp only
      rw [hb bbr hbb.1 bbc hbb.2, if_neg h1, if_pos ⟨rfl, rfl⟩]
      simp
    · intro q hq hne
      rcases q with ⟨qr, qc⟩
      have hqb := (mem_allSquares qr qc).mp hq
      simp only
      rw [hb qr hqb.1 qc hqb.2]
      by_cases h1 : qr = wbr ∧ qc = wbc
      · rw [if_pos h1]
        simp
      · rw [if_neg h1]
        by_cases h2 : qr = bbr ∧ qc = bbc
        · exact absurd (by rw [h2.1, h2.2]) hne
        · rw [if_neg h2]
          by_cases h3 : qr = wkr ∧ qc = wkc
          · rw [if_pos h3]
            simp
          · rw [if_neg h3]
            by_cases h4 : qr = bkr ∧ qc = bkc
            · rw [if_pos h4]
              simp
            · rw [if_neg h4]
  constructor
  · intro hpar
    apply makeMove_draw_fields s m s' hmm hgo hterm
    unfold isInsufficientMaterial
    rw [hw, hbl]
    simp [hpar]
  · intro hpar
    unfold isInsufficientMaterial
    rw [hw, hbl]
    simp [hpar]

/-- C9 witness: after Bc1xb2 in kbState only kings and two bishops on
dark squares remain; the result is a drawn, finished game. -/
theorem C9_witness :
    (mmFinish kbState kbMove ⟨.white, .B⟩).gameOver = true ∧
    (mmFinish kbState kbMove ⟨.white, .B⟩).result = some drawResult :=
  (C9_insufficient_material kbState kbMove (mmFinish kbState kbMove ⟨.white, .B⟩)
    6 1 0 5 7 4 0 4
    (by rfl) (by rfl) (by decide) (by decide) (by decide) (by decide) (by decide)
    (by decide) (by decide)).1 (by decide)

/-! ## C3 — FEN round-trip -/

theorem list_len6 {α : Type} (l : List α) (h : l.length = 6) :
    ∃ a b c d e g, l = [a, b, c, d, e, g] := by
  rcases l with _ | ⟨a, _ | ⟨b, _ | ⟨c, _ | ⟨d, _ | ⟨e, _ | ⟨g, _ | ⟨x, t⟩⟩⟩⟩⟩⟩⟩ <;>
    simp_all

theorem list_len8 {α : Type} (l : List α) (h : l.length = 8) :
    ∃ a b c d e g i j, l = [a, b, c, d, e, g, i, j] := by
  rcases l with _ | ⟨a, _ | ⟨b, _ | ⟨c, _ | ⟨d, _ | ⟨e, _ | ⟨g, _ | ⟨i,
    _ | ⟨j, _ | ⟨x, t⟩⟩⟩⟩⟩⟩⟩⟩⟩ <;> simp_all

theorem natToCharsAux_fuel : ∀ fuel n, n < fuel →
    natToCharsAux fuel n = natToCharsAux (n + 1) n := by
  intro fuel
  induction fuel using Nat.strong_induction_on with
  | _ fuel ih =>
    intro n hn
    match fuel, hn with
    | fuel + 1, hn =>
      by_cases h10 : n < 10
      · show (if n < 10 then _ else _) = natToCharsAux (n + 1) n
        rw [if_pos h10]
        cases n with
        | zero => rfl
        | succ k =>
          show _ = (if k + 1 < 10 then _ else _)
          rw [if_pos h10]
      · have hd : n / 10 < n := Nat.div_lt_self (by omega) (by omega)
        show (if n < 10 then _ else _) = natToCharsAux (n + 1) n
        rw [if_neg h10]
        have h1 : natToCharsAux fuel (n / 10) = natToCharsAux (n / 10 + 1) (n / 10) :=
          ih fuel (Nat.lt_succ_self fuel) (n / 10) (by omega)
        cases n with
        | zero => omega
        | succ k =>
          show _ = (if k + 1 < 10 then _ else _)
          rw [if_neg h10, h1, ih (k + 1) hn ((k + 1) / 10) hd]

/-- The recursion equation of natToChars. -/
theorem natToChars_eq (n : Nat) :
    natToChars n =
      if n < 10 then [digitChar n]
      else natToChars (n / 10) ++ [digitChar (n % 10)] := by
  show natToCharsAux (n + 1) n = _
  by_cases h10 : n < 10
  · cases n with
    | zero => rfl
    | succ k =>
      show (if k + 1 < 10 then _ else _) = _
      rw [if_pos h10, if_pos h10]
  · cases n with
    | zero => omega
    | succ k =>
      show (if k + 1 < 10 then _ else _) = _
      rw [if_neg h10, if_neg h10,
        natToCharsAux_fuel (k + 1) ((k + 1) / 10) (Nat.div_lt_self (by omega) (by omega))]
      rfl

theorem digitChar_isDigit (n : Nat) (h : n < 10) : (digitChar n).isDigit = true := by
  interval_cases n <;> decide

theorem digitVal_digitChar (n : Nat) (h : n < 10) : digitVal (digitChar n) = n := by
  interval_cases n <;> decide

theorem natToChars_ne_nil (n : Nat) : natToChars n ≠ [] := by
  rw [natToChars_eq]
  split
  · exact List.cons_ne_nil _ _
  · exact fun h => absurd h (List.append_ne_nil_of_right_ne_nil _ (List.cons_ne_nil _ _))

theorem natToChars_all_digits (n : Nat) : (natToChars n).all (·.isDigit) = true := by
  induction n using Nat.strong_induction_on with
  | _ n ih =>
    rw [natToChars_eq]
    split
    · simp [digitChar_isDigit n (by omega)]
    · rename_i h
      rw [List.all_append, Bool.and_eq_true]
      refine ⟨ih (n / 10) (Nat.div_lt_self (by omega) (by omega)), ?_⟩
      simp [digitChar_isDigit (n % 10) (Nat.mod_lt n (by omega))]

theorem digitsToNat_append (a : List Char) (c : Char) :
    digitsToNat (a ++ [c]) = 10 * digitsToNat a + digitVal c := by
  unfold digitsToNat
  rw [List.foldl_append]
  rfl

theorem digitsToNat_natToChars (n : Nat) : digitsToNat (natToChars n) = n := by
  induction n using Nat.strong_induction_on with
  | _ n ih =>
    rw [natToChars_eq]
    split
    · rename_i h
      show digitsToNat [digitChar n] = n
      unfold digitsToNat
      simp [digitVal_digitChar n h]
    · rename_i h
      rw [digitsToNat_append, ih (n / 10) (Nat.div_lt_self (by omega) (by omega)),
        digitVal_digitChar (n % 10) (Nat.mod_lt n (by omega))]
      omega

theorem jsParseNat_wfClock (s : List Char) (h : wfClock s = true) :
    jsParseNat s = some (digitsToNat s) := by
  have hs : s = natToChars (digitsToNat s) := by
    simpa [wfClock] using h
  have hall : s.all (·.isDigit) = true := by
    rw [hs]
    exact natToChars_all_digits _
  have htw : s.takeWhile (·.isDigit) = s :=
    List.takeWhile_eq_self_iff.mpr (by simpa [List.all_eq_true] using hall)
  have hne : s ≠ [] := by
    rw [hs]
    exact natToChars_ne_nil _
  unfold jsParseNat
  simp only [htw]
  rw [if_neg hne]

theorem wfCastle_ne_nil (cs : List Char) (h : wfCastle cs = true) : cs ≠ [] := by
  have hmem : cs ∈ castleFields := by
    simpa [wfCastle, List.elem_iff] using h
  fin_cases hmem <;> decide

theorem castle_roundtrip (cs : List Char) (h : wfCastle cs = true) :
    (if ((if cs.contains 'K' then ['K'] else []) ++
        (if cs.contains 'Q' then ['Q'] else []) ++
        (if cs.contains 'k' then ['k'] else []) ++
        (if cs.contains 'q' then ['q'] else [])) = [] then ['-']
     else
       (if cs.contains 'K' then ['K'] else []) ++
       (if cs.contains 'Q' then ['Q'] else []) ++
       (if cs.contains 'k' then ['k'] else []) ++
       (if cs.contains 'q' then ['q'] else [])) = cs := by
  have hmem : cs ∈ castleFields := by
    simpa [wfCastle, List.elem_iff] using h
  fin_cases hmem <;> decide

theorem ep_roundtrip (ep : List Char) (h : wfEp ep = true) :
    (if ep ≠ [] ∧ ep ≠ ['-'] then
        some (⟨8 - (digitVal (ep.getD 1 '0') : Int),
              ((ep.getD 0 ' ').toNat : Int) - 97⟩ : Square)
      else none : Option Square).elim ['-']
      (fun sq => Char.ofNat (97 + sq.col).toNat :: intToChars (8 - sq.row)) = ep := by
  rcases ep with _ | ⟨c1, _ | ⟨c2, _ | ⟨c3, tl⟩⟩⟩
  · simp [wfEp] at h
  · -- single character: well-formed only as "-"
    have h1 : c1 = '-' := by
      simpa [wfEp] using h
    subst h1
    simp
  · -- two characters: a file letter and a rank digit
    have hb : (97 ≤ c1.toNat ∧ c1.toNat ≤ 104) ∧ 49 ≤ c2.toNat ∧ c2.toNat ≤ 56 := by
      simpa [wfEp] using h
    obtain ⟨⟨hb1a, hb1b⟩, hb2a, hb2b⟩ := hb
    rw [if_pos ⟨by simp, by simp⟩]
    have hc1 := (Char.ofNat_toNat c1).symm
    have hc2 := (Char.ofNat_toNat c2).symm
    generalize hg1 : c1.toNat = n1 at hb1a hb1b hc1
    generalize hg2 : c2.toNat = n2 at hb2a hb2b hc2
    subst hc1
    subst hc2
    interval_cases n1 <;> interval_cases n2 <;> decide
  · simp [wfEp] at h

theorem encodeRowAux_replicate (k : Nat) : ∀ (l : List (Option Piece)) (e : Nat),
    encodeRowAux (List.replicate k none ++ l) e = encodeRowAux l (e + k) := by
  induction k with
  | zero =>
    intro l e
    simp [List.replicate]
  | succ j ih =>
    intro l e
    show encodeRowAux (none :: (List.replicate j none ++ l)) e = _
    rw [show encodeRowAux (none :: (List.replicate j none ++ l)) e =
        encodeRowAux (List.replicate j none ++ l) (e + 1) from rfl, ih]
    congr 1
    omega

theorem parseRow_length (s : List Char) :
    (parseRowChars s).length = rowCount s := by
  induction s with
  | nil => rfl
  | cons c rest ih =>
    show (if c.isDigit then _ else _ : List (Option Piece)).length = (if c.isDigit then digitVal c else 1) + rowCount rest
    split
    · simp [ih]
    · simp [ih]
      omega

theorem pieceChar_pieceOfChar (c : Char) (hc : validRowChar c = true)
    (hd : c.isDigit = false) : pieceChar (pieceOfChar c) = c := by
  have hmem : c ∈ ['P', 'N', 'B', 'R', 'Q', 'K', 'p', 'n', 'b', 'r', 'q', 'k',
      '1', '2', '3', '4', '5', '6', '7', '8'] := by
    simpa [validRowChar, List.elem_iff] using hc
  fin_cases hmem <;> first | decide | (exact absurd hd (by decide))

theorem digit_prefix_eq (c : Char) (hc : validRowChar c = true)
    (hd : c.isDigit = true) :
    (if 0 < digitVal c then natToChars (digitVal c) else []) = [c] := by
  have hmem : c ∈ ['P', 'N', 'B', 'R', 'Q', 'K', 'p', 'n', 'b', 'r', 'q', 'k',
      '1', '2', '3', '4', '5', '6', '7', '8'] := by
    simpa [validRowChar, List.elem_iff] using hc
  fin_cases hmem <;> first | decide | (exact absurd hd (by decide))

theorem encodeRowAux_piece_head (p : Piece) (l : List (Option Piece)) (e : Nat) :
    encodeRowAux (some p :: l) e =
      (if 0 < e then natToChars e else []) ++ encodeRowAux (some p :: l) 0 := by
  show (if e > 0 then natToChars e else []) ++ pieceChar p :: encodeRowAux l 0 = _
  simp [encodeRowAux]

theorem noAdjDigits_tail (c : Char) (l : List Char)
    (h : noAdjDigits (c :: l) = true) : noAdjDigits l = true := by
  cases l with
  | nil => rfl
  | cons c2 t =>
    have h2 := h
    unfold noAdjDigits at h2
    rw [Bool.and_eq_true] at h2
    exact h2.2

/-- The run-length encoding of boardToFEN inverts the digit expansion of
parseFEN on every well-formed row. -/
theorem encodeRow_parseRow : ∀ (n : Nat) (s : List Char), s.length ≤ n →
    s.all validRowChar = true → noAdjDigits s = true →
    encodeRowAux (parseRowChars s) 0 = s := by
  intro n
  induction n with
  | zero =>
    intro s hlen _ _
    have hnil : s = [] := List.eq_nil_of_length_eq_zero (Nat.le_zero.mp hlen)
    subst hnil
    rfl
  | succ m ih =>
    intro s hlen hall hadj
    cases s with
    | nil => rfl
    | cons ch rest =>
      rw [List.all_cons, Bool.and_eq_true] at hall
      by_cases hd : ch.isDigit
      · have hdexp : parseRowChars (ch :: rest) =
            List.replicate (digitVal ch) none ++ parseRowChars rest := by
          show (if ch.isDigit then _ else _) = _
          rw [if_pos hd]
        rw [hdexp, encodeRowAux_replicate]
        simp only [Nat.zero_add]
        cases rest with
        | nil =>
          show (if 0 < digitVal ch then natToChars (digitVal ch) else []) = [ch]
          exact digit_prefix_eq ch hall.1 hd
        | cons ch2 rest2 =>
          have hd2 : ch2.isDigit = false := by
            have hadj' := hadj
            unfold noAdjDigits at hadj'
            rw [Bool.and_eq_true] at hadj'
            have h1 := hadj'.1
            rw [hd] at h1
            simpa using h1
          have hadj2 : noAdjDigits (ch2 :: rest2) = true := noAdjDigits_tail ch _ hadj
          have hp2 : parseRowChars (ch2 :: rest2) =
              some (pieceOfChar ch2) :: parseRowChars rest2 := by
            show (if ch2.isDigit then _ else _) = _
            rw [hd2]
            simp
          rw [hp2, encodeRowAux_piece_head, ← hp2,
            ih (ch2 :: rest2) (by simpa using hlen) hall.2 hadj2,
            digit_prefix_eq ch hall.1 hd]
          rfl
      · have hp : parseRowChars (ch :: rest) =
            some (pieceOfChar ch) :: parseRowChars rest := by
          show (if ch.isDigit then _ else _) = _
          rw [if_neg hd]
        rw [hp]
        show (if 0 > 0 then _ else []) ++
          pieceChar (pieceOfChar ch) :: encodeRowAux (parseRowChars rest) 0 = ch :: rest
        rw [if_neg (by omega),
          pieceChar_pieceOfChar ch hall.1 (Bool.not_eq_true _ ▸ eq_false_of_ne_true hd),
          ih rest (by simpa using Nat.le_of_succ_le_succ (by simpa using hlen)) hall.2
            (noAdjDigits_tail ch rest hadj)]
        rfl

theorem map_getD_len8 {α : Type} (l : List α) (d : α) (h : l.length = 8) :
    (List.range 8).map (fun c => l.getD c d) = l := by
  obtain ⟨a, b, c, e, g, i, j, k, rfl⟩ := list_len8 l h
  rfl

/-- Well-formedness of one row, split into its three components. -/
theorem wfRow_parts (ri : List Char) (h : wfRow ri = true) :
    ri.all validRowChar = true ∧ noAdjDigits ri = true ∧
      (parseRowChars ri).length = 8 := by
  unfold wfRow at h
  rw [Bool.and_eq_true, Bool.and_eq_true] at h
  refine ⟨h.1.1, h.1.2, ?_⟩
  rw [parseRow_length]
  simpa using h.2

/-- One fully handled board row: reading the parsed row back through
rankSquares and re-encoding it restores the row text. -/
theorem row_roundtrip (ri : List Char) (h : wfRow ri = true) :
    encodeRowAux ((List.range 8).map (fun c => (parseRowChars ri).getD c none)) 0 = ri := by
  obtain ⟨hv, ha, hl⟩ := wfRow_parts ri h
  rw [map_getD_len8 _ _ hl]
  exact encodeRow_parseRow ri.length ri (le_refl _) hv ha

/-- The placement field round-trips through parseFEN and boardToFEN. -/
theorem placement_roundtrip (p0 : List Char) (h : wfPlacement p0 = true) :
    List.intercalate ['/'] ((List.range 8).map (fun r =>
      encodeRowAux (rankSquares ((List.range 8).map (fun r' =>
        parseRowChars ((splitCh '/' p0).getD r' []))) r) 0)) = p0 := by
  unfold wfPlacement at h
  rw [Bool.and_eq_true] at h
  have hlen : (splitCh '/' p0).length = 8 := by simpa using h.1
  obtain ⟨r0, r1, r2, r3, r4, r5, r6, r7, hrows⟩ := list_len8 _ hlen
  have hall := h.2
  rw [hrows] at hall
  simp only [List.all_cons, List.all_nil, Bool.and_eq_true, Bool.and_true] at hall
  obtain ⟨h0, h1, h2, h3, h4, h5, h6, h7⟩ := hall
  rw [hrows]
  show List.intercalate ['/']
    [encodeRowAux ((List.range 8).map (fun c => (parseRowChars r0).getD c none)) 0,
     encodeRowAux ((List.range 8).map (fun c => (parseRowChars r1).getD c none)) 0,
     encodeRowAux ((List.range 8).map (fun c => (parseRowChars r2).getD c none)) 0,
     encodeRowAux ((List.range 8).map (fun c => (parseRowChars r3).getD c none)) 0,
     encodeRowAux ((List.range 8).map (fun c => (parseRowChars r4).getD c none)) 0,
     encodeRowAux ((List.range 8).map (fun c => (parseRowChars r5).getD c none)) 0,
     encodeRowAux ((List.range 8).map (fun c => (parseRowChars r6).getD c none)) 0,
     encodeRowAux ((List.range 8).map (fun c => (parseRowChars r7).getD c none)) 0] = p0
  rw [row_roundtrip r0 h0, row_roundtrip r1 h1, row_roundtrip r2 h2,
    row_roundtrip r3 h3, row_roundtrip r4 h4, row_roundtrip r5 h5,
    row_roundtrip r6 h6, row_roundtrip r7 h7]
  have hsp : [('/')].intercalate (p0.splitOn '/') = p0 := List.intercalate_splitOn p0 '/'
  rw [show p0.splitOn '/' = splitCh '/' p0 from rfl, hrows] at hsp
  exact hsp

/-- C3: serializing the state parsed from a well-formed FEN string
reproduces that string character for character, across all six fields.
Every canonical FEN of a legal reachable position is well-formed in the
sense of wellFormedFEN. -/
theorem C3_fen_roundtrip (f : List Char) (hwf : wellFormedFEN f = true) :
    boardToFEN (stateFromFEN f) = f := by
  unfold wellFormedFEN at hwf
  simp only [Bool.and_eq_true] at hwf
  obtain ⟨⟨⟨⟨⟨⟨hlen, hpl⟩, hturn⟩, hcas⟩, hep⟩, hclk⟩, hfm⟩ := hwf
  have hlen6 : (splitCh ' ' f).length = 6 := by simpa using hlen
  obtain ⟨p0, p1, p2, p3, p4, p5, hparts⟩ := list_len6 _ hlen6
  rw [hparts] at hpl hturn hcas hep hclk hfm
  have hpl' : wfPlacement p0 = true := hpl
  have hcas' : wfCastle p2 = true := hcas
  have hep' : wfEp p3 = true := hep
  have hclk' : wfClock p4 = true := hclk
  have hfm' : wfClock p5 = true ∧ 1 ≤ digitsToNat p5 := by
    have h2 : wfFullMove p5 = true := hfm
    unfold wfFullMove at h2
    rw [Bool.and_eq_true] at h2
    exact ⟨h2.1, by simpa using h2.2⟩
  -- the parts of the state, as raw rfl equations
  have e1 : (stateFromFEN f).board = (List.range 8).map (fun r =>
      parseRowChars ((splitCh '/' ((splitCh ' ' f).getD 0 [])).getD r [])) := rfl
  have e2 : (stateFromFEN f).turn =
      (if (if (splitCh ' ' f).getD 1 [] = [] then ['w'] else (splitCh ' ' f).getD 1 []) = ['w']
       then Color.white else Color.black) := rfl
  have e3K : (stateFromFEN f).castling.wK =
      (if (splitCh ' ' f).getD 2 [] = [] then ['K', 'Q', 'k', 'q']
       else (splitCh ' ' f).getD 2 []).contains 'K' := rfl
  have e3Q : (stateFromFEN f).castling.wQ =
      (if (splitCh ' ' f).getD 2 [] = [] then ['K', 'Q', 'k', 'q']
       else (splitCh ' ' f).getD 2 []).contains 'Q' := rfl
  have e3k : (stateFromFEN f).castling.bK =
      (if (splitCh ' ' f).getD 2 [] = [] then ['K', 'Q', 'k', 'q']
       else (splitCh ' ' f).getD 2 []).contains 'k' := rfl
  have e3q : (stateFromFEN f).castling.bQ =
      (if (splitCh ' ' f).getD 2 [] = [] then ['K', 'Q', 'k', 'q']
       else (splitCh ' ' f).getD 2 []).contains 'q' := rfl
  have e4 : (stateFromFEN f).enPassant =
      (if (splitCh ' ' f).getD 3 [] ≠ [] ∧ (splitCh ' ' f).getD 3 [] ≠ ['-'] then
        some (⟨8 - (digitVal (((splitCh ' ' f).getD 3 []).getD 1 '0') : Int),
              ((((splitCh ' ' f).getD 3 []).getD 0 ' ').toNat : Int) - 97⟩ : Square)
      else none) := rfl
  have e5 : (stateFromFEN f).halfMoveClock =
      (jsParseNat ((splitCh ' ' f).getD 4 [])).getD 0 := rfl
  have e6 : (stateFromFEN f).fullMoveNumber =
      (if (jsParseNat ((splitCh ' ' f).getD 5 [])).getD 1 = 0 then 1
       else (jsParseNat ((splitCh ' ' f).getD 5 [])).getD 1) := rfl
  rw [hparts] at e1 e2 e3K e3Q e3k e3q e4 e5 e6
  have hg0 : List.getD [p0, p1, p2, p3, p4, p5] 0 [] = p0 := rfl
  have hg1 : List.getD [p0, p1, p2, p3, p4, p5] 1 [] = p1 := rfl
  have hg2 : List.getD [p0, p1, p2, p3, p4, p5] 2 [] = p2 := rfl
  have hg3 : List.getD [p0, p1, p2, p3, p4, p5] 3 [] = p3 := rfl
  have hg4 : List.getD [p0, p1, p2, p3, p4, p5] 4 [] = p4 := rfl
  have hg5 : List.getD [p0, p1, p2, p3, p4, p5] 5 [] = p5 := rfl
  rw [hg0] at e1
  rw [hg1] at e2
  rw [hg2] at e3K e3Q e3k e3q
  rw [hg3] at e4
  rw [hg4] at e5
  rw [hg5] at e6
  -- nonemptiness of the turn and castling fields
  have hp1ne : p1 ≠ [] := by
    have ht2 := hturn
    rw [hg1, Bool.or_eq_true] at ht2
    rcases ht2 with h | h <;> simp_all
  have hp2ne : p2 ≠ [] := wfCastle_ne_nil p2 hcas'
  rw [if_neg hp1ne] at e2
  rw [if_neg hp2ne] at e3K e3Q e3k e3q
  -- clock values
  rw [jsParseNat_wfClock p4 hclk', Option.getD_some] at e5
  rw [jsParseNat_wfClock p5 hfm'.1, Option.getD_some,
    if_neg (by omega : ¬digitsToNat p5 = 0)] at e6
  -- now unfold the serializer and push the component equations in
  unfold boardToFEN
  rw [e1, e2, e3K, e3Q, e3k, e3q, e4, e5, e6]
  rw [placement_roundtrip p0 hpl']
  dsimp only
  rw [castle_roundtrip p2 hcas']
  rw [ep_roundtrip p3 hep']
  have hp4 : natToChars (digitsToNat p4) = p4 := by
    have hx : p4 = natToChars (digitsToNat p4) := by
      simpa [wfClock] using hclk'
    exact hx.symm
  have hp5 : natToChars (digitsToNat p5) = p5 := by
    have hx : p5 = natToChars (digitsToNat p5) := by
      simpa [wfClock] using hfm'.1
    exact hx.symm
  rw [hp4, hp5]
  -- reassemble f from its six parts
  have hsp : [(' ')].intercalate (f.splitOn ' ') = f := List.intercalate_splitOn f ' '
  rw [show f.splitOn ' ' = splitCh ' ' f from rfl, hparts] at hsp
  rw [← hsp]
  rw [Bool.or_eq_true] at hturn
  rcases hturn with h | h
  · have h1 : p1 = ['w'] := by simpa using h
    subst h1
    rw [if_pos rfl]
    simp [List.intercalate, List.intersperse]
    rfl
  · have h1 : p1 = ['b'] := by simpa using h
    subst h1
    rw [if_neg (by decide : ¬(['b'] : List Char) = ['w'])]
    simp [List.intercalate, List.intersperse]
    rfl


/-- C3 witness: the starting-position FEN is well-formed and round-trips
exactly. -/
theorem C3_witness :
    wellFormedFEN startFEN = true ∧
    boardToFEN (stateFromFEN startFEN) = startFEN :=
  ⟨by decide, C3_fen_roundtrip startFEN (by decide)⟩

end Chess
